import Mathlib

/-!
A shallow embedding of the snakefmt reformatting/emission engine
(`src/snakefmt/formatter.py`) in Lean 4, together with theorems checking the
natural-language specification's claims against it.

Python strings are modelled as `List Char`.  The Python string operations the
formatter relies on (`str.splitlines`, `str.rstrip`, `str.replace`,
`textwrap.indent`, `textwrap.dedent`, the regular-expression scan for
triple-quoted spans) are modelled character by character after CPython's
semantics.  The external collaborators (black's `format_str`, `ast.parse`) are
modelled as oracle parameters, the way the specification treats them: black
boxes from text to formatted text or failure.
-/

namespace Snakefmt

/-- Python strings, modelled as lists of characters. -/
abbrev Str := List Char

/-- The characters `str.splitlines` treats as line boundaries (CPython). -/
def isLineBreak (c : Char) : Bool :=
  c = '\n' || c = '\r' || c = '\u000B' || c = '\u000C' ||
  c = '\u001C' || c = '\u001D' || c = '\u001E' || c = '\u0085' ||
  c = '\u2028' || c = '\u2029'

/-- The characters Python's `str.strip()` / `str.isspace()` treat as whitespace. -/
def isPyWs (c : Char) : Bool :=
  c = ' ' || c = '\t' || c = '\n' || c = '\r' || c = '\u000B' || c = '\u000C' ||
  c = '\u001C' || c = '\u001D' || c = '\u001E' || c = '\u001F' ||
  c = '\u0085' || c = '\u00A0' || c = '\u1680' ||
  c = '\u2000' || c = '\u2001' || c = '\u2002' || c = '\u2003' || c = '\u2004' ||
  c = '\u2005' || c = '\u2006' || c = '\u2007' || c = '\u2008' || c = '\u2009' ||
  c = '\u200A' || c = '\u2028' || c = '\u2029' || c = '\u202F' || c = '\u205F' ||
  c = '\u3000'

/-- Worker for Python `str.splitlines()`: the accumulator holds the current
line reversed; `\r\n` counts as a single boundary. -/
def splitlinesGo (acc : Str) : Str → List Str
  | [] => if acc = [] then [] else [acc.reverse]
  | '\r' :: '\n' :: rest => acc.reverse :: splitlinesGo [] rest
  | c :: rest =>
    if isLineBreak c then acc.reverse :: splitlinesGo [] rest
    else splitlinesGo (c :: acc) rest

/-- Python `str.splitlines()` (line boundaries removed). -/
def pySplitlines (s : Str) : List Str := splitlinesGo [] s

/-- Worker for Python `str.splitlines(keepends=True)`. -/
def splitlinesKeepGo (acc : Str) : Str → List Str
  | [] => if acc = [] then [] else [acc.reverse]
  | '\r' :: '\n' :: rest => (acc.reverse ++ ['\r', '\n']) :: splitlinesKeepGo [] rest
  | c :: rest =>
    if isLineBreak c then (acc.reverse ++ [c]) :: splitlinesKeepGo [] rest
    else splitlinesKeepGo (c :: acc) rest

/-- Python `str.splitlines(keepends=True)`. -/
def pySplitlinesKeep (s : Str) : List Str := splitlinesKeepGo [] s

/-- Python `"\n".join(lines)`. -/
def joinNL : List Str → Str
  | [] => []
  | [l] => l
  | l :: ls => l ++ '\n' :: joinNL ls

/-- Concatenation of a list of strings (Python `"".join(lines)`). -/
def joinAll (ls : List Str) : Str := ls.flatten

/-- Python `str.rstrip()` (no argument: strip trailing whitespace). -/
def pyRstrip (s : Str) : Str := (s.reverse.dropWhile isPyWs).reverse

/-- Python `str.rstrip(chars)` for an explicit set of characters. -/
def pyRstripChars (cs : Str) (s : Str) : Str :=
  (s.reverse.dropWhile (fun c => cs.contains c)).reverse

/-- Python `str.strip("\n")`. -/
def stripNL (s : Str) : Str :=
  ((s.dropWhile (fun c => c = '\n')).reverse.dropWhile (fun c => c = '\n')).reverse

/-- Python `str.isspace()`. -/
def pyIsSpace (s : Str) : Bool := !s.isEmpty && s.all isPyWs

/-- Python `pat in s` (substring containment). -/
def containsSub (pat : Str) : Str → Bool
  | [] => pat.isPrefixOf ([] : Str)
  | c :: rest => pat.isPrefixOf (c :: rest) || containsSub pat rest

/-- Worker for Python `str.replace(old, new)`: left-to-right, non-overlapping,
the scan continues after each replaced occurrence.  The fuel merely pads the
recursion: one unit per consumed character always suffices, and `pyReplace`
supplies `s.length`. -/
def replaceGo (pat rep : Str) : Nat → Str → Str
  | 0, s => s
  | _ + 1, [] => []
  | fuel + 1, c :: rest =>
    if !pat.isEmpty && pat.isPrefixOf (c :: rest) then
      rep ++ replaceGo pat rep fuel ((c :: rest).drop pat.length)
    else c :: replaceGo pat rep fuel rest

/-- Python `str.replace(old, new)` (for the non-empty patterns the formatter
uses). -/
def pyReplace (pat rep s : Str) : Str := replaceGo pat rep s.length s

/-- Python `s.count(c)` for a single character. -/
def countChar (c : Char) (s : Str) : Nat := s.count c

/-- Split around the first occurrence of `pat`: this is what
`re.match("(.*?) = (.*)", s, re.DOTALL)` computes with `pat = " = "` — the
non-greedy first group stops at the first occurrence, the second group takes
the whole rest. -/
def firstSplitAt (pat : Str) : Str → Option (Str × Str)
  | [] => if pat.isEmpty then some ([], []) else none
  | c :: rest =>
    if pat.isPrefixOf (c :: rest) then some ([], (c :: rest).drop pat.length)
    else match firstSplitAt pat rest with
      | some (a, b) => some (c :: a, b)
      | none => none

/-- The predicate `textwrap.indent` applies by default: `line.strip()` is
truthy, i.e. the line has a non-whitespace character. -/
def hasContent (l : Str) : Bool := l.any (fun c => !isPyWs c)

/-- CPython `textwrap.indent(text, used_indent)` with the default predicate:
split keeping line ends, prefix every line that has non-whitespace content. -/
def textwrapIndent (text used_indent : Str) : Str :=
  joinAll ((pySplitlinesKeep text).map
    (fun l => if hasContent l then used_indent ++ l else l))

/-- Splitting on `'\n'` alone, keeping empty segments: Python `text.split("\n")`.
This is the line structure `textwrap.dedent`'s `(?m)` regexes see. -/
def splitOnNL : Str → List Str
  | [] => [[]]
  | c :: rest =>
    if c = '\n' then [] :: splitOnNL rest
    else match splitOnNL rest with
      | [] => [[c]]
      | l :: ls => (c :: l) :: ls

/-- A line matched by `textwrap`'s `_whitespace_only_re` (`^[ \t]+$`):
non-empty and made of spaces and tabs only. -/
def wsOnlyLine (l : Str) : Bool := !l.isEmpty && l.all (fun c => c = ' ' || c = '\t')

/-- `textwrap.dedent` first blanks whitespace-only lines entirely. -/
def dedentNorm (l : Str) : Str := if wsOnlyLine l then [] else l

/-- A line `_leading_whitespace_re` reports an indent for: it has a character
outside `[ \t]` (a line holds no `'\n'`). -/
def dedentContentLine (l : Str) : Bool := l.any (fun c => !(c = ' ' || c = '\t'))

/-- The `[ \t]*` leading run of a line. -/
def leadWs (l : Str) : Str := l.takeWhile (fun c => c = ' ' || c = '\t')

/-- Longest common starting run of two strings. -/
def commonStart : Str → Str → Str
  | a :: as, b :: bs => if a = b then a :: commonStart as bs else []
  | _, _ => []

/-- One step of `textwrap.dedent`'s margin loop; its three cases amount to the
longest common starting run of the margin so far and the next indent. -/
def marginStep (m ind : Str) : Str :=
  if m.isPrefixOf ind then m
  else if ind.isPrefixOf m then ind
  else commonStart m ind

/-- The margin `textwrap.dedent` computes (on the text with whitespace-only
lines already blanked). -/
def dedentMargin (t : Str) : Str :=
  let norm := (splitOnNL t).map dedentNorm
  match (norm.filter dedentContentLine).map leadWs with
  | [] => []
  | i :: is => is.foldl marginStep i

/-- CPython `textwrap.dedent`: blank whitespace-only lines, compute the common
margin of the remaining lines, remove it from every line that starts with it. -/
def textwrapDedent (t : Str) : Str :=
  let norm := (splitOnNL t).map dedentNorm
  let m := dedentMargin t
  joinNL (norm.map (fun l => if !m.isEmpty && m.isPrefixOf l then l.drop m.length else l))

/-- Three consecutive `q` characters at the head of `s`. -/
def tripleAt (q : Char) : Str → Bool
  | a :: b :: c :: _ => a = q && b = q && c = q
  | _ => false

/-- Earliest start of a triple-`q` run: the non-greedy `.*?` search of
`triple_quote_matcher` for the closing delimiter (`re.DOTALL`, so any
character may intervene). -/
def findTripleIdx (q : Char) : Str → Option Nat
  | [] => none
  | s@(_ :: rest) =>
    if tripleAt q s then some 0
    else (findTripleIdx q rest).map (· + 1)

/-- Length of the `triple_quote_matcher` match starting exactly here: the
double-quote alternative of `("{3}.*?"{3})|('{3}.*?'{3})` is tried first,
then the single-quote one. -/
def matchLenAt (s : Str) : Option Nat :=
  if tripleAt '\"' s then (findTripleIdx '\"' (s.drop 3)).map (· + 6)
  else if tripleAt '\'' s then (findTripleIdx '\'' (s.drop 3)).map (· + 6)
  else none

/-- First match of `re.finditer(triple_quote_matcher, s)`: the length of the
gap before the match, and the length of the match. -/
def findMatch : Str → Option (Nat × Nat)
  | [] => none
  | s@(_ :: rest) =>
    match matchLenAt s with
    | some m => some (0, m)
    | none => (findMatch rest).map (fun p => (p.1 + 1, p.2))

/-- Modelled from the spec: `TAB`, the indentation unit, is four spaces.
(`snakefmt.parser.syntax.TAB` is not among the sources under review; the
spec's §4.3/§8 examples use four-space units of plain spaces.) -/
def TAB : Str := [' ', ' ', ' ', ' ']

/-- Python `u * n` for a string `u`. -/
def repeatStr (u : Str) : Nat → Str
  | 0 => []
  | n + 1 => u ++ repeatStr u n

/-- The handling of one `triple_quote_matcher` match slice inside
`Formatter.string_format` (`formatter.py` lines 131–139): replace tabs by
`TAB`; a multi-line slice at positive indent is stripped of `"""`, dedented,
re-wrapped in `"""` and indented; any other slice is prefixed with the indent. -/
def sliceFormat (slice used_indent : Str) (target_indent : Nat) : Str :=
  let slice := pyReplace ['\t'] TAB slice
  if 0 < countChar '\n' slice ∧ 0 < target_indent then
    let dedented := pyReplace ['\"', '\"', '\"'] [] slice
    let dedented := ['\"', '\"', '\"'] ++ textwrapDedent dedented ++ ['\"', '\"', '\"']
    textwrapIndent dedented used_indent
  else used_indent ++ slice

/-- The `re.finditer` loop of `Formatter.string_format`: indent each gap
between matches separately, process each match slice, finish by indenting the
tail after the last match.  The fuel merely pads the recursion: one unit per
match suffices, so `s.length` is always enough. -/
def stringFormatGo (used_indent : Str) (target_indent : Nat) : Nat → Str → Str
  | 0, s => textwrapIndent s used_indent
  | fuel + 1, s =>
    match findMatch s with
    | none => textwrapIndent s used_indent
    | some (g, m) =>
      textwrapIndent (s.take g) used_indent ++
        sliceFormat ((s.drop g).take m) used_indent target_indent ++
        stringFormatGo used_indent target_indent fuel (s.drop (g + m))

/-- `Formatter.string_format` (`formatter.py` lines 124–143). -/
def string_format (s : Str) (target_indent : Nat) : Str :=
  stringFormatGo (repeatStr TAB target_indent) target_indent s.length s

/-- The concatenation of the non-match gaps of the `triple_quote_matcher`
scan: the text that lies outside every triple-quoted span.  Fuel as in
`stringFormatGo`. -/
def gapsGo : Nat → Str → Str
  | 0, s => s
  | fuel + 1, s =>
    match findMatch s with
    | none => s
    | some (g, m) => s.take g ++ gapsGo fuel (s.drop (g + m))

/-- The text of `s` outside every triple-quoted span. -/
def tripleQuoteGaps (s : Str) : Str := gapsGo s.length s

/-- The error kinds the emission engine raises (`snakefmt.exceptions`):
`InvalidPython` out of `run_black_format_str`, `InvalidParameterSyntax` out of
the parameter validity check, and the `AttributeError` Python would raise if
the key-normalization regex found no match. -/
inductive FmtError where
  | invalidPython (source : Str)
  | invalidParameterSyntax (msg : Str)
  | attributeError
deriving DecidableEq, Repr

/-- The external code-formatting engine (`black.format_str` under the
formatter's mode) as a black-box oracle; `none` models `black.InvalidInput`. -/
def BlackOracle := Str → Option Str

/-- The external `ast.parse` check as a black-box oracle: `true` means the
text parses as valid code. -/
def AstOracle := Str → Bool

/-- `Formatter.run_black_format_str` (`formatter.py` lines 115–122): delegate
to black, turning `black.InvalidInput` into `InvalidPython`. -/
def run_black_format_str (black : BlackOracle) (s : Str) : Except FmtError Str :=
  match black s with
  | some fmted => .ok fmted
  | none => .error (.invalidPython s)

/-- One parameter of a parameter list (`snakefmt.parser.syntax.Parameter` is
outside the sources under review).  Modelled from the spec §3: one value, an
optional key, zero or more trailing comment lines, and the line number used in
error messages (kept here as its rendered text). -/
structure Parameter where
  value : Str
  hasKey : Bool
  key : Str
  comments : List Str
  lineNb : Str
deriving DecidableEq, Repr

/-- Modelled from the spec: `str(parameter)` renders the `key=value` form when
a key is present (§4.3 key/value normalization), else the raw value. -/
def paramStr (p : Parameter) : Str :=
  if p.hasKey then p.key ++ ['='] ++ p.value else p.value

/-- The three parameter-group kinds (spec §3): a list of N≥0 parameters, the
`SingleParam` block-style single parameter, and the `RuleInlineSingleParam`
inline-style single parameter (a subclass of `SingleParam`). -/
inductive PKind where
  | paramList
  | singleParam
  | ruleInlineSingleParam
deriving DecidableEq, Repr

/-- `issubclass(p_class, SingleParam)` over the modelled kinds (modelled from
the spec: both single-parameter kinds count). -/
def PKind.isSingleParam : PKind → Bool
  | .paramList => false
  | _ => true

/-- A parameter group (`snakefmt.parser.syntax.ParameterSyntax`): its kind,
keyword name, optional keyword-line comment, target indent and parameters. -/
structure ParamGroup where
  kind : PKind
  keyword_name : Str
  comment : Str
  target_indent : Nat
  all_params : List Parameter
deriving DecidableEq, Repr

/-- `Formatter.format_param` (`formatter.py` lines 145–181). -/
def format_param (ast : AstOracle) (black : BlackOracle) (parameter : Parameter)
    (target_indent0 : Nat) (inline_formatting single_param : Bool) :
    Except FmtError Str :=
  let target_indent := if inline_formatting then 0 else target_indent0
  let comments := List.intercalate (['\n'] ++ repeatStr TAB target_indent) parameter.comments
  let val := paramStr parameter
  if ast (("param(".data) ++ val ++ (")".data)) = false then
    .error (.invalidParameterSyntax (parameter.lineNb ++ val))
  else
    let val := if inline_formatting then pyReplace ['\n'] [] val else val
    let afterTry : Except FmtError Str :=
      match black val with
      | none =>
        .ok (if containsSub ['*', '*'] val then pyReplace ("** ".data) ("**".data) val else val)
      | some fmted =>
        let fmted := string_format fmted target_indent
        if parameter.hasKey then
          match firstSplitAt (" = ".data) fmted with
          | some (g1, g2) => .ok (g1 ++ ['='] ++ g2)
          | none => .error .attributeError
        else .ok fmted
    match afterTry with
    | .error e => .error e
    | .ok val1 =>
      let val2 := stripNL val1
      if single_param then .ok (val2 ++ comments ++ ['\n'])
      else .ok (val2 ++ [','] ++ comments ++ ['\n'])

/-- The `for elem in parameters.all_params` loop of `Formatter.format_params`,
threading the accumulated result and propagating the first error. -/
def formatParamsGo (ast : AstOracle) (black : BlackOracle) (ps : List Parameter)
    (target_indent : Nat) (inline_fmting single_param : Bool) (acc : Str) :
    Except FmtError Str :=
  match ps with
  | [] => .ok acc
  | p :: rest =>
    match format_param ast black p target_indent inline_fmting single_param with
    | .error e => .error e
    | .ok r => formatParamsGo ast black rest target_indent inline_fmting single_param (acc ++ r)

/-- `Formatter.format_params` (`formatter.py` lines 183–204). -/
def format_params (ast : AstOracle) (black : BlackOracle) (parameters : ParamGroup)
    (in_rule : Bool) : Except FmtError Str :=
  let target_indent := parameters.target_indent
  let used_indent := repeatStr TAB (target_indent - 1)
  let result := used_indent ++ parameters.keyword_name ++ [':'] ++ parameters.comment
  let single_param := parameters.kind.isSingleParam
  let inline_fmting := single_param
  let inline_fmting :=
    if in_rule ∧ parameters.kind ≠ PKind.ruleInlineSingleParam then false else inline_fmting
  let result := result ++ (if inline_fmting then [' '] else ['\n'])
  formatParamsGo ast black parameters.all_params target_indent inline_fmting single_param result

/-- The emission-engine state the claims quantify over: `self.result` (the
spec's OutputBuffer), `self.lagging_comments`, `self.first` (IsFirstBlock). -/
structure FmtState where
  result : Str
  lagging_comments : Str
  first : Bool
deriving DecidableEq, Repr

/-- The state `Formatter.__init__` sets up: empty output, no lagging
comments, `self.first = True`. -/
def initState : FmtState := ⟨[], [], true⟩

/-- The `for line in reversed(all_lines)` loop of `Formatter.add_newlines`
(lines 221–224), applied to the reversed line list: count lines while they
are non-empty and start with `#`, stop at the first that is not. -/
def commentMatchesLoop : List Str → Nat
  | [] => 0
  | l :: rest =>
    if l.length = 0 then 0
    else if l.head? ≠ some '#' then 0
    else 1 + commentMatchesLoop rest

/-- `Formatter.add_newlines` (`formatter.py` lines 206–237). -/
def add_newlines (s : FmtState) (cur_indent : Nat) (formatted_string : Str)
    (final_flush : Bool) : FmtState :=
  if cur_indent = 0 then
    let result := if s.first then s.result else s.result ++ ['\n', '\n']
    let result := if s.lagging_comments ≠ [] then result ++ s.lagging_comments else result
    let lagging := if s.lagging_comments ≠ [] then [] else s.lagging_comments
    let all_lines := pySplitlines formatted_string
    if 0 < all_lines.length then
      let comment_matches := commentMatchesLoop all_lines.reverse
      let comment_break := all_lines.length - comment_matches
      let result :=
        if 0 < comment_break then
          result ++ pyRstrip (joinNL (all_lines.take comment_break)) ++ ['\n']
        else result
      let lagging :=
        if 0 < comment_matches then joinNL (all_lines.drop comment_break) ++ ['\n'] else lagging
      let result :=
        if 0 < comment_matches ∧ final_flush then result ++ lagging else result
      let first := if s.first ∧ comment_break ≠ 0 then false else s.first
      ⟨result, lagging, first⟩
    else
      ⟨result, lagging, if s.first then false else s.first⟩
  else
    ⟨s.result ++ formatted_string, s.lagging_comments, if s.first then false else s.first⟩

/-- `Formatter.flush_buffer` (`formatter.py` lines 78–100).  The pending
buffer and the parser's current `target_indent` are explicit inputs; the
source clears the buffer in every path, so it is simply consumed here. -/
def flush_buffer (black : BlackOracle) (s : FmtState) (buffer : Str)
    (target_indent : Nat) (from_python final_flush : Bool) : Except FmtError FmtState :=
  if buffer.length = 0 ∨ pyIsSpace buffer then
    .ok ⟨s.result ++ buffer, s.lagging_comments, s.first⟩
  else if from_python = false then
    let trailing_newline := (['\n', '\n'] : Str).isSuffixOf buffer
    match run_black_format_str black buffer with
    | .error e => .error e
    | .ok formatted =>
      let formatted :=
        if 0 < target_indent then textwrapIndent formatted (repeatStr TAB target_indent)
        else formatted
      let formatted := if trailing_newline then formatted ++ ['\n'] else formatted
      .ok (add_newlines s target_indent formatted final_flush)
  else
    .ok ⟨s.result ++ pyRstripChars TAB buffer, s.lagging_comments, s.first⟩

/-- A line that is non-empty and starts with the comment marker `#`. -/
def isCommentLine (l : Str) : Bool := l.head? = some '#'

/-- The maximal suffix of lines that are non-empty and start with `#`: the
claims' description of `add_newlines`'s trailing-comment scan. -/
def maximalCommentSuffix (ls : List Str) : List Str :=
  (ls.reverse.takeWhile isCommentLine).reverse

/-- The part of a top-level block `add_newlines` commits immediately: the
lines before the trailing-comment suffix, joined, right-stripped and newline
terminated — empty when every line belongs to the trailing-comment suffix. -/
def committedBody (fs : Str) : Str :=
  let ls := pySplitlines fs
  let cb := ls.length - (maximalCommentSuffix ls).length
  if 0 < cb then pyRstrip (joinNL (ls.take cb)) ++ ['\n'] else []

/-- Length of the leading space/tab run of a line. -/
def leadWsLen (l : Str) : Nat := (leadWs l).length

/-- A line with its leading space/tab run removed. -/
def dropLeadWs (l : Str) : Str := l.drop (leadWsLen l)

/-- A concrete stand-in for the black oracle on inputs black returns
unchanged up to the trailing newline (for instance `"x.txt"` ↦ `"x.txt"` and
a newline): it closes the demonstration theorems, the way §9 suggests
substituting a test double for the engine. -/
def echoBlack : BlackOracle := fun s => some (s ++ ['\n'])

/-- A black oracle that always reports `InvalidInput`. -/
def failBlack : BlackOracle := fun _ => none

/-- An `ast.parse` oracle that accepts everything. -/
def yesAst : AstOracle := fun _ => true

/-- An `ast.parse` oracle that rejects everything (standing in for inputs the
Python parser rejects, such as `param(def()`). -/
def noAst : AstOracle := fun _ => false

/-- The triple-double-quote delimiter. -/
def q3 : Str := ['\"', '\"', '\"']

/-- Single-character replacement of `'\t'` by `TAB`, the closed form of
`pyReplace ['\t'] TAB` (proved equal below). -/
def tabRepl (s : Str) : Str := s.flatMap (fun c => if c = '\t' then TAB else [c])

/-- Re-attach `keepends`-style line ends to a `'\n'`-split line list: every
line but the last gets its `'\n'` back, and a final empty segment (the one a
trailing `'\n'` produces) disappears. -/
def klines : List Str → List Str
  | [] => []
  | [l] => if l.isEmpty then [] else [l]
  | l :: ls => (l ++ ['\n']) :: klines ls

/-- Prepend text to the first segment of a split. -/
def consHead (a : Str) : List Str → List Str
  | [] => [a]
  | l :: ls => (a ++ l) :: ls

/-- Append text to the last segment of a split. -/
def appendLast (a : Str) : List Str → List Str
  | [] => [a]
  | [l] => [l ++ a]
  | l :: ls => l :: appendLast a ls

/-- What `textwrap.dedent` does to one (already `'\n'`-split) line, given the
margin: blank it if whitespace-only, else remove the margin when it starts
with it. -/
def dedLine (m l : Str) : Str :=
  let n := dedentNorm l
  if !m.isEmpty && m.isPrefixOf n then n.drop m.length else n

/-- The per-line action of `textwrap.indent` with prefix `u`. -/
def indLine (u l : Str) : Str := if hasContent l then u ++ l else l

/-- Claim C2, counterexample.  Take the parameter group with keyword `input`,
target indent 1, one parameter `"x.txt"`, kind `SingleParam` (the
non-rule-inline single-parameter kind), inside a rule, with black behaving as
`echoBlack` does on this value (black leaves `"x.txt"` unchanged and appends a
newline).  `format_params` renders `input:\n    "x.txt"\n`: at target indent 1
the keyword line gets `TAB * 0 = ""` of indent, and a single-parameter kind
never receives a trailing comma — not the claimed `    input:\n        "x.txt",\n`. -/
theorem claim_C2_counterexample :
    format_params yesAst echoBlack
        ⟨PKind.singleParam, ("input").data, [], 1,
          [⟨("\"x.txt\"").data, false, [], [], ("L2: ").data⟩]⟩ true
      = .ok (("input:\n    \"x.txt\"\n").data) ∧
    (("input:\n    \"x.txt\"\n").data : Str) ≠ ("    input:\n        \"x.txt\",\n").data := by
  refine ⟨rfl, by decide⟩

/-- Claim C2 as amended: with keyword `input` at target indent 1 holding the
single parameter `"x.txt"` inside a rule (black echoing the value plus a
newline, `ast.parse` accepting), the non-rule-inline single-parameter kind
renders block style as `input:\n    "x.txt"\n` — keyword line unindented at
this indent, the parameter one level deeper, no trailing comma because
single-parameter kinds never get one — and the explicitly-inline kind renders
`input: "x.txt"\n`.  (The spec's displayed strings correspond to target
indent 2, which `claim_C8_witness` exercises.) -/
theorem claim_C2_theorem :
    format_params yesAst echoBlack
        ⟨PKind.singleParam, ("input").data, [], 1,
          [⟨("\"x.txt\"").data, false, [], [], ("L2: ").data⟩]⟩ true
      = .ok (("input:\n    \"x.txt\"\n").data) ∧
    format_params yesAst echoBlack
        ⟨PKind.ruleInlineSingleParam, ("input").data, [], 1,
          [⟨("\"x.txt\"").data, false, [], [], ("L2: ").data⟩]⟩ true
      = .ok (("input: \"x.txt\"\n").data) := by
  exact ⟨rfl, rfl⟩

/-- Claim C5: `format_param` first wraps the value in the trivial call
`param(...)` and hands it to the parser; whenever that parse fails, it raises
the fatal `InvalidParameterSyntax` carrying the value's line number and text,
before any formatting is attempted — the value is never emitted. -/
theorem claim_C5_theorem (ast : AstOracle) (black : BlackOracle) (p : Parameter)
    (ti : Nat) (inl sp : Bool)
    (h : ast (("param(").data ++ paramStr p ++ (")").data) = false) :
    format_param ast black p ti inl sp
      = .error (.invalidParameterSyntax (p.lineNb ++ paramStr p)) := by
  unfold format_param
  simp only [h]
  simp

/-- Claim C5, witness: the value `def(` under an `ast.parse` oracle that
rejects `param(def()` (as Python's parser does: the text is not syntactically
completable) raises `InvalidParameterSyntax` referencing line tag and value. -/
theorem claim_C5_witness :
    format_param noAst echoBlack ⟨("def(").data, false, [], [], ("L3: ").data⟩ 1 false true
      = .error (.invalidParameterSyntax
          ((⟨("def(").data, false, [], [], ("L3: ").data⟩ : Parameter).lineNb
            ++ paramStr ⟨("def(").data, false, [], [], ("L3: ").data⟩)) :=
  claim_C5_theorem noAst echoBlack ⟨("def(").data, false, [], [], ("L3: ").data⟩ 1 false true
    (by decide)

/-- Claim C9: when the parse check passes but black fails on the (possibly
inline-collapsed) value, `format_param` raises nothing: if the value contains
the double-splat marker `**`, every `"** "` has its stray space removed;
otherwise the value is kept exactly as it stood before the formatting attempt;
either way the value is then emitted unformatted through the usual
strip/comma/comment rendering. -/
theorem claim_C9_theorem (ast : AstOracle) (black : BlackOracle) (p : Parameter)
    (ti : Nat) (inl sp : Bool)
    (h1 : ast (("param(").data ++ paramStr p ++ (")").data) = true)
    (h2 : black (if inl then pyReplace ['\n'] [] (paramStr p) else paramStr p) = none) :
    format_param ast black p ti inl sp
      = .ok
          (stripNL
              (if containsSub ['*', '*']
                  (if inl then pyReplace ['\n'] [] (paramStr p) else paramStr p) then
                pyReplace ("** ").data ("**").data
                  (if inl then pyReplace ['\n'] [] (paramStr p) else paramStr p)
              else if inl then pyReplace ['\n'] [] (paramStr p) else paramStr p) ++
            (if sp then [] else [',']) ++
            List.intercalate (['\n'] ++ repeatStr TAB (if inl then 0 else ti)) p.comments ++
            ['\n']) := by
  unfold format_param
  simp only [h1, h2]
  cases sp <;> cases inl <;> simp [List.append_assoc]

/-- Claim C9, witness: the value `** x` (parse oracle accepting, black
failing) is accepted unformatted with the stray space removed: `**x,` plus the
line end. -/
theorem claim_C9_witness :
    format_param yesAst failBlack ⟨("** x").data, false, [], [], ("L4: ").data⟩ 1 false false
      = .ok (("**x,\n").data) := by
  rw [claim_C9_theorem yesAst failBlack ⟨("** x").data, false, [], [], ("L4: ").data⟩ 1
    false false (by decide) (by decide)]
  rfl

theorem commentMatchesLoop_eq (ls : List Str) :
    commentMatchesLoop ls = (ls.takeWhile isCommentLine).length := by
  induction ls with
  | nil => rfl
  | cons l rest ih =>
    cases l with
    | nil => simp [commentMatchesLoop, isCommentLine, List.takeWhile_cons]
    | cons a as =>
      by_cases ha : a = '#'
      · subst ha
        simp [commentMatchesLoop, isCommentLine, List.takeWhile_cons, ih, Nat.add_comm]
      · simp [commentMatchesLoop, isCommentLine, List.takeWhile_cons, ha]

theorem commentMatchesLoop_le (ls : List Str) : commentMatchesLoop ls ≤ ls.length := by
  rw [commentMatchesLoop_eq]
  exact (List.takeWhile_sublist _).length_le

theorem maximalCommentSuffix_length (ls : List Str) :
    (maximalCommentSuffix ls).length = commentMatchesLoop ls.reverse := by
  rw [commentMatchesLoop_eq, maximalCommentSuffix, List.length_reverse]

theorem takeWhile_reverse_decomp {α : Type} (ls : List α) (p : α → Bool) :
    ls = (ls.reverse.dropWhile p).reverse ++ (ls.reverse.takeWhile p).reverse := by
  conv_lhs =>
    rw [← List.reverse_reverse ls,
      ← List.takeWhile_append_dropWhile (p := p) (l := ls.reverse)]
  rw [List.reverse_append]

theorem drop_comment_suffix (ls : List Str) :
    ls.drop (ls.length - commentMatchesLoop ls.reverse) = maximalCommentSuffix ls := by
  rw [commentMatchesLoop_eq]
  have hd := takeWhile_reverse_decomp ls isCommentLine
  have hlen2 : (ls.reverse.takeWhile isCommentLine).length
      + (ls.reverse.dropWhile isCommentLine).length = ls.length := by
    rw [← List.length_append, List.takeWhile_append_dropWhile, List.length_reverse]
  have hk : (ls.reverse.dropWhile isCommentLine).reverse.length
      = ls.length - (ls.reverse.takeWhile isCommentLine).length := by
    simp only [List.length_reverse]; omega
  have key := List.drop_left (ls.reverse.dropWhile isCommentLine).reverse
    (ls.reverse.takeWhile isCommentLine).reverse
  rw [← hd, hk] at key
  rw [key, maximalCommentSuffix]

theorem take_comment_suffix (ls : List Str) :
    ls.take (ls.length - commentMatchesLoop ls.reverse)
      = (ls.reverse.dropWhile isCommentLine).reverse := by
  rw [commentMatchesLoop_eq]
  have hd := takeWhile_reverse_decomp ls isCommentLine
  have hlen2 : (ls.reverse.takeWhile isCommentLine).length
      + (ls.reverse.dropWhile isCommentLine).length = ls.length := by
    rw [← List.length_append, List.takeWhile_append_dropWhile, List.length_reverse]
  have hk : (ls.reverse.dropWhile isCommentLine).reverse.length
      = ls.length - (ls.reverse.takeWhile isCommentLine).length := by
    simp only [List.length_reverse]; omega
  have key := List.take_left (ls.reverse.dropWhile isCommentLine).reverse
    (ls.reverse.takeWhile isCommentLine).reverse
  rw [← hd, hk] at key
  exact key

/-- The closed form of a top-level `add_newlines` commit: the separator is
empty when `first` is set and exactly two newline characters otherwise, then
the held lagging comments, then the committed body, then — only on a final
flush with a trailing comment run — the new lagging comments; the new lagging
state is that comment run, and `first` survives only an all-comment commit. -/
theorem add_newlines_zero_eq (s : FmtState) (fs : Str) (ff : Bool) :
    add_newlines s 0 fs ff
      = ⟨s.result ++ (if s.first then [] else ['\n', '\n']) ++ s.lagging_comments ++
            (if 0 < (pySplitlines fs).length - commentMatchesLoop (pySplitlines fs).reverse then
              pyRstrip (joinNL ((pySplitlines fs).take
                ((pySplitlines fs).length
                  - commentMatchesLoop (pySplitlines fs).reverse))) ++ ['\n']
            else []) ++
            (if 0 < commentMatchesLoop (pySplitlines fs).reverse ∧ ff then
              joinNL ((pySplitlines fs).drop
                ((pySplitlines fs).length
                  - commentMatchesLoop (pySplitlines fs).reverse)) ++ ['\n']
            else []),
          (if 0 < commentMatchesLoop (pySplitlines fs).reverse then
            joinNL ((pySplitlines fs).drop
              ((pySplitlines fs).length
                - commentMatchesLoop (pySplitlines fs).reverse)) ++ ['\n']
          else []),
          s.first && (!(pySplitlines fs).isEmpty &&
            decide ((pySplitlines fs).length
              - commentMatchesLoop (pySplitlines fs).reverse = 0))⟩ := by
  obtain ⟨r, lc, fi⟩ := s
  unfold add_newlines
  simp only [if_pos rfl]
  by_cases hls : (pySplitlines fs).length = 0
  · have hnil : pySplitlines fs = [] := List.length_eq_zero.mp hls
    cases fi <;> by_cases hlc : lc = ([] : Str) <;>
      simp_all [hnil, commentMatchesLoop]
  · have hpos : 0 < (pySplitlines fs).length := Nat.pos_of_ne_zero hls
    have hne : ¬(pySplitlines fs).isEmpty := by
      cases h : pySplitlines fs with
      | nil => simp [h] at hls
      | cons a as => simp [h]
    have hle := commentMatchesLoop_le (pySplitlines fs).reverse
    rw [List.length_reverse] at hle
    by_cases hcb : (pySplitlines fs).length - commentMatchesLoop (pySplitlines fs).reverse = 0
    · have hnlt : ¬ commentMatchesLoop (pySplitlines fs).reverse < (pySplitlines fs).length := by
        omega
      have hcm : 0 < commentMatchesLoop (pySplitlines fs).reverse := by omega
      cases fi <;> by_cases hlc : lc = ([] : Str) <;> cases ff <;> simp_all
    · have hlt : commentMatchesLoop (pySplitlines fs).reverse < (pySplitlines fs).length := by
        omega
      cases fi <;> by_cases hlc : lc = ([] : Str) <;>
        by_cases hcm : 0 < commentMatchesLoop (pySplitlines fs).reverse <;>
          cases ff <;> simp_all

theorem takeWhile_length_eq_iff (p : Str → Bool) (l : List Str) :
    ((l.takeWhile p).length = l.length) ↔ l.all p = true := by
  induction l with
  | nil => simp
  | cons a as ih =>
    by_cases h : p a = true
    · simp [List.takeWhile_cons, h, ih]
    · have hle := (List.takeWhile_sublist (l := as) (p := p)).length_le
      simp only [List.takeWhile_cons, h]
      simp only [Bool.false_eq_true, if_false, List.all_cons, h, Bool.false_and,
        List.length_cons, List.length_nil]
      constructor
      · intro hx; omega
      · intro hx; cases hx

/-- Claim C6, counterexample: a commit at non-zero indent (here indent 1, text
`x` and a newline) clears `self.first` — the trailing `if self.first: if
comment_break != 0` runs with `comment_break` still at its initial value 1 —
where the claim says such commits leave it true. -/
theorem claim_C6_counterexample :
    (add_newlines initState 1 (("x\n").data) false).first = false := by decide

/-- Claim C6 as amended: `self.first` starts true, and an `add_newlines` call
leaves it set exactly when it was set and the call is a top-level commit whose
text splits into a non-empty line list made only of comment lines; every
other call — any commit at non-zero indent, and any top-level commit with
empty text or with at least one non-comment line — permanently clears it
(third conjunct: it is never set by a call that found it clear). -/
theorem claim_C6_theorem (s : FmtState) (ci : Nat) (fs : Str) (ff : Bool) :
    initState.first = true ∧
    ((add_newlines s ci fs ff).first
      = (s.first && (decide (ci = 0) && ((!(pySplitlines fs).isEmpty) &&
          (pySplitlines fs).all isCommentLine)))) ∧
    ((add_newlines s ci fs ff).first = true → s.first = true) := by
  have hmain : (add_newlines s ci fs ff).first
      = (s.first && (decide (ci = 0) && ((!(pySplitlines fs).isEmpty) &&
          (pySplitlines fs).all isCommentLine))) := by
    by_cases hci : ci = 0
    · subst hci
      rw [add_newlines_zero_eq]
      have hle := commentMatchesLoop_le (pySplitlines fs).reverse
      rw [List.length_reverse] at hle
      have hall : (decide ((pySplitlines fs).length
            - commentMatchesLoop (pySplitlines fs).reverse = 0)
            && !(pySplitlines fs).isEmpty)
          = ((pySplitlines fs).all isCommentLine && !(pySplitlines fs).isEmpty) := by
        cases hls : pySplitlines fs with
        | nil => simp
        | cons a as =>
          have h2 : commentMatchesLoop (a :: as).reverse
              = ((a :: as).reverse.takeWhile isCommentLine).length := commentMatchesLoop_eq _
          have h3 : (((a :: as).reverse.takeWhile isCommentLine).length
                = (a :: as).reverse.length) ↔ (a :: as).reverse.all isCommentLine = true :=
            takeWhile_length_eq_iff _ _
          rw [hls] at hle
          simp only [List.isEmpty_cons, Bool.not_false, Bool.and_true]
          rw [List.length_reverse, List.all_reverse] at h3
          by_cases h4 : (a :: as).all isCommentLine = true
          · rw [h4]
            have := h3.mpr h4
            simp only [decide_eq_true_eq]
            rw [h2]
            omega
          · rw [Bool.eq_false_iff.mpr h4]
            simp only [decide_eq_false_iff_not]
            rw [h2]
            intro hcontra
            exact h4 (h3.mp (by omega))
      cases hf : s.first <;> simp_all
      cases h5 : (pySplitlines fs).all isCommentLine <;>
        cases h6 : (pySplitlines fs).isEmpty <;> simp_all
    · unfold add_newlines
      simp only [hci, if_neg, if_false]
      cases hf : s.first <;> simp [hci]
  refine ⟨rfl, hmain, ?_⟩
  rw [hmain]
  intro h
  exact (Bool.and_eq_true_iff.mp h).1

/-- Claim C1, counterexample: two consecutive plain top-level commits (`a`
then `b`) leave output lines `a`, blank, blank, `b` — each committed block
ends with one newline and the next commit prepends two more, so exactly two
blank lines separate consecutive top-level blocks, not the claimed one. -/
theorem claim_C1_counterexample :
    pySplitlines
        (add_newlines (add_newlines initState 0 (("a\n").data) false) 0
          (("b\n").data) false).result
      = [("a").data, [], [], ("b").data] := by decide

/-- Claim C4: a top-level non-final commit withholds exactly the maximal
suffix of non-empty `#`-marker lines as the new LaggingComments, commits the
remaining lines immediately (joined, right-stripped, newline-terminated), and
commits any previously held LaggingComments unchanged directly before the new
block's content (after the blank-line separator, before the body) — which is
what attaches a comment run to the following top-level section rather than
the preceding one. -/
theorem claim_C4_theorem (s : FmtState) (fs : Str) :
    (add_newlines s 0 fs false).lagging_comments
        = (if 0 < (maximalCommentSuffix (pySplitlines fs)).length then
            joinNL (maximalCommentSuffix (pySplitlines fs)) ++ ['\n'] else []) ∧
    (add_newlines s 0 fs false).result
        = s.result ++ (if s.first then [] else ['\n', '\n']) ++ s.lagging_comments ++
            committedBody fs := by
  rw [add_newlines_zero_eq]
  constructor
  · rw [maximalCommentSuffix_length, drop_comment_suffix]
  · simp only [committedBody, maximalCommentSuffix_length]
    simp [List.append_assoc]

theorem head?_dropWhile_not {α : Type} (p : α → Bool) (l : List α) (c : α)
    (h : (l.dropWhile p).head? = some c) : p c = false := by
  induction l with
  | nil => simp at h
  | cons a as ih =>
    rw [List.dropWhile_cons] at h
    by_cases hp : p a = true
    · rw [if_pos hp] at h
      exact ih h
    · rw [if_neg hp] at h
      simp only [List.head?_cons, Option.some.injEq] at h
      subst h
      exact Bool.eq_false_iff.mpr hp

theorem pyRstrip_getLast_not_ws (s : Str) (c : Char)
    (h : (pyRstrip s).getLast? = some c) : isPyWs c = false := by
  unfold pyRstrip at h
  rw [List.getLast?_reverse] at h
  exact head?_dropWhile_not _ _ _ h

theorem pyRstrip_eq_append (s : Str) :
    s = pyRstrip s ++ (s.reverse.takeWhile isPyWs).reverse :=
  takeWhile_reverse_decomp s isPyWs

theorem pyRstrip_ne_nil (s : Str) (h : ∃ c ∈ s, isPyWs c = false) : pyRstrip s ≠ [] := by
  intro hnil
  obtain ⟨c, hc, hw⟩ := h
  have hs := pyRstrip_eq_append s
  rw [hnil, List.nil_append] at hs
  rw [hs, List.mem_reverse] at hc
  have := List.mem_takeWhile_imp hc
  rw [this] at hw
  cases hw

theorem pyRstrip_head? (s : Str) (h : pyRstrip s ≠ []) :
    (pyRstrip s).head? = s.head? := by
  obtain ⟨x, xs, hx⟩ : ∃ x xs, pyRstrip s = x :: xs := by
    cases hp : pyRstrip s with
    | nil => exact absurd hp h
    | cons a as => exact ⟨a, as, rfl⟩
  conv_rhs => rw [pyRstrip_eq_append s]
  rw [hx]
  simp

theorem joinNL_cons (l : Str) (ls : List Str) (h : ls ≠ []) :
    joinNL (l :: ls) = l ++ '\n' :: joinNL ls := by
  cases ls with
  | nil => exact absurd rfl h
  | cons b bs => rfl

theorem joinNL_head? (l : Str) (ls : List Str) (hne : l ≠ []) :
    (joinNL (l :: ls)).head? = l.head? := by
  cases ls with
  | nil => rfl
  | cons b bs =>
    rw [joinNL_cons _ _ (by simp)]
    cases l with
    | nil => exact absurd rfl hne
    | cons a as => rfl

theorem mem_joinNL_of_mem_head (c : Char) (l : Str) (ls : List Str) (h : c ∈ l) :
    c ∈ joinNL (l :: ls) := by
  cases ls with
  | nil => exact h
  | cons b bs =>
    rw [joinNL_cons _ _ (by simp)]
    exact List.mem_append_left _ h

set_option maxHeartbeats 1000000 in
theorem splitlinesGo_no_lb (acc t : Str) :
    (∀ c ∈ acc, isLineBreak c = false) →
      ∀ l ∈ splitlinesGo acc t, ∀ c ∈ l, isLineBreak c = false := by
  induction acc, t using splitlinesGo.induct with
  | case1 =>
    intro _ l hl
    rw [splitlinesGo.eq_1] at hl
    simp at hl
  | case2 acc hne =>
    intro hacc l hl c hc
    rw [splitlinesGo.eq_1, if_neg hne] at hl
    simp only [List.mem_singleton] at hl
    subst hl
    exact hacc c (List.mem_reverse.mp hc)
  | case3 acc rest ih =>
    intro hacc l hl c hc
    rw [splitlinesGo.eq_2] at hl
    rcases List.mem_cons.mp hl with h | h
    · subst h
      exact hacc c (List.mem_reverse.mp hc)
    · exact ih (by intro x hx; cases hx) l h c hc
  | case4 acc c0 rest hne hlb ih =>
    intro hacc l hl c hc
    rw [splitlinesGo.eq_3 acc c0 rest (by intro r2 ha hb; exact hne r2 ha hb), if_pos hlb] at hl
    rcases List.mem_cons.mp hl with h | h
    · subst h
      exact hacc c (List.mem_reverse.mp hc)
    · exact ih (by intro x hx; cases hx) l h c hc
  | case5 acc c0 rest hne hlb ih =>
    intro hacc l hl c hc
    rw [splitlinesGo.eq_3 acc c0 rest (by intro r2 ha hb; exact hne r2 ha hb), if_neg hlb] at hl
    refine ih ?_ l hl c hc
    intro x hx
    rcases List.mem_cons.mp hx with h | h
    · subst h
      exact Bool.eq_false_iff.mpr hlb
    · exact hacc x h

theorem pySplitlines_no_lb (fs : Str) :
    ∀ l ∈ pySplitlines fs, ∀ c ∈ l, isLineBreak c = false :=
  splitlinesGo_no_lb [] fs (by intro c hc; cases hc)

theorem commentMatchesLoop_head_zero (x : Str) (r : List Str)
    (h : isCommentLine x = false) : commentMatchesLoop (x :: r) = 0 := by
  rw [commentMatchesLoop_eq, List.takeWhile_cons, h]
  rfl

theorem hasContent_ne_nil (l : Str) (h : hasContent l = true) : l ≠ [] := by
  intro hn
  subst hn
  simp [hasContent] at h

theorem hasContent_exists (l : Str) (h : hasContent l = true) :
    ∃ c ∈ l, isPyWs c = false := by
  unfold hasContent at h
  simpa using h

/-- Claim C1 as amended: with no lagging comments held, a top-level commit
whose text splits into lines with a contentful first line and a non-comment
last line appends to the output exactly the separator — nothing when
IsFirstBlock is set, exactly two newline characters otherwise, never more and
never fewer — followed by the committed body; the body is non-empty, starts
with a non-line-break character, and is the right-stripped text plus exactly
one final newline.  So the first top-level block has no leading blank line,
and two consecutive top-level blocks are separated by exactly two blank lines
(the previous block's own line end plus the two prepended newlines), not by
the claimed single blank line. -/
theorem claim_C1_theorem (s : FmtState) (fs : Str) (ff : Bool)
    (h1 : s.lagging_comments = [])
    (h2 : ∃ l0 rest, pySplitlines fs = l0 :: rest ∧ hasContent l0 = true)
    (h3 : isCommentLine (((pySplitlines fs).getLast?).getD []) = false) :
    (add_newlines s 0 fs ff).result
        = s.result ++ (if s.first then [] else ['\n', '\n']) ++
            (pyRstrip (joinNL (pySplitlines fs)) ++ ['\n']) ∧
    pyRstrip (joinNL (pySplitlines fs)) ≠ [] ∧
    (∀ c, (pyRstrip (joinNL (pySplitlines fs))).head? = some c → isLineBreak c = false) ∧
    (∀ c, (pyRstrip (joinNL (pySplitlines fs))).getLast? = some c → isPyWs c = false) ∧
    (add_newlines s 0 fs ff).lagging_comments = [] ∧
    (add_newlines s 0 fs ff).first = false := by
  obtain ⟨l0, rest, hls, hcont⟩ := h2
  have hcm : commentMatchesLoop (pySplitlines fs).reverse = 0 := by
    cases hrev : (pySplitlines fs).reverse with
    | nil => rfl
    | cons y ys =>
      have hy : ((pySplitlines fs).getLast?).getD [] = y := by
        have hh : (pySplitlines fs).reverse.head? = some y := by rw [hrev]; rfl
        rw [List.head?_reverse] at hh
        rw [hh]
        rfl
      exact commentMatchesLoop_head_zero y ys (hy ▸ h3)
  have hlen : 0 < (pySplitlines fs).length := by rw [hls]; simp
  have hBne : pyRstrip (joinNL (pySplitlines fs)) ≠ [] := by
    apply pyRstrip_ne_nil
    obtain ⟨c, hc, hw⟩ := hasContent_exists l0 hcont
    exact ⟨c, hls ▸ mem_joinNL_of_mem_head c l0 rest hc, hw⟩
  refine ⟨?_, hBne, ?_, ?_, ?_, ?_⟩
  · rw [add_newlines_zero_eq]
    simp only [hcm, Nat.sub_zero, h1]
    rw [if_pos hlen, List.take_length]
    have hno : ¬(0 < (0 : Nat) ∧ ff = true) := by simp
    rw [if_neg hno]
    cases hf : s.first <;> simp [List.append_assoc]
  · intro c hc
    rw [pyRstrip_head? _ hBne, hls, joinNL_head? l0 rest (hasContent_ne_nil l0 hcont)] at hc
    have hcmem : c ∈ l0 := List.mem_of_mem_head? hc
    exact pySplitlines_no_lb fs l0 (hls ▸ List.mem_cons_self l0 rest) c hcmem
  · intro c hc
    exact pyRstrip_getLast_not_ws _ c hc
  · rw [add_newlines_zero_eq]
    simp [hcm]
  · rw [add_newlines_zero_eq]
    have hz : ¬((pySplitlines fs).length = 0) := by omega
    simp [hcm, hz]

/-- Claim C1, witness at a concrete input: a second block `x` committed after
a first block whose output is `r` and a newline. -/
theorem claim_C1_witness :
    (add_newlines ⟨("r\n").data, [], false⟩ 0 (("x\n").data) false).result
        = ("r\n").data ++ (if (false : Bool) then [] else ['\n', '\n']) ++
            (pyRstrip (joinNL (pySplitlines (("x\n").data))) ++ ['\n']) ∧
    pyRstrip (joinNL (pySplitlines (("x\n").data))) ≠ [] ∧
    (∀ c, (pyRstrip (joinNL (pySplitlines (("x\n").data)))).head? = some c →
      isLineBreak c = false) ∧
    (∀ c, (pyRstrip (joinNL (pySplitlines (("x\n").data)))).getLast? = some c →
      isPyWs c = false) ∧
    (add_newlines ⟨("r\n").data, [], false⟩ 0 (("x\n").data) false).lagging_comments = [] ∧
    (add_newlines ⟨("r\n").data, [], false⟩ 0 (("x\n").data) false).first = false :=
  claim_C1_theorem ⟨("r\n").data, [], false⟩ (("x\n").data) false rfl
    ⟨("x").data, [], by decide, by decide⟩ (by decide)

/-- Claim C7, counterexample: a final flush whose pending buffer is empty
returns through the early whitespace path and never reaches `add_newlines`,
so held LaggingComments stay held and are absent from the output — the claim
says the final flush always force-commits them, for every final buffer
content including the empty one. -/
theorem claim_C7_counterexample :
    flush_buffer echoBlack ⟨("r\n").data, ("# c\n").data, false⟩ [] 0 false true
      = .ok ⟨("r\n").data, ("# c\n").data, false⟩ := rfl

/-- Claim C7 as amended: on a final flush whose pending text is non-empty,
not whitespace-only and not DSL-structural (`from_python = false`), at target
indent 0 and with black succeeding, the held LaggingComments are always
committed: the new output is the old output, the separator, the old
LaggingComments, the committed body of the formatted text, then (exactly when
the block ends in trailing comment lines) the new LaggingComments.  When the
final pending text is empty or whitespace-only the flush returns early and
held LaggingComments are not committed (see the counterexample). -/
theorem claim_C7_theorem (black : BlackOracle) (s : FmtState) (buffer fmted : Str)
    (h1 : buffer.length ≠ 0) (h2 : pyIsSpace buffer = false)
    (h3 : black buffer = some fmted) :
    ∃ t, flush_buffer black s buffer 0 false true = .ok t ∧
      t.result = s.result ++ (if s.first then [] else ['\n', '\n']) ++ s.lagging_comments ++
          committedBody
            (if (['\n', '\n'] : Str).isSuffixOf buffer then fmted ++ ['\n'] else fmted) ++
          t.lagging_comments := by
  refine ⟨add_newlines s 0
      (if (['\n', '\n'] : Str).isSuffixOf buffer then fmted ++ ['\n'] else fmted) true,
    ?_, ?_⟩
  · unfold flush_buffer run_black_format_str
    rw [if_neg (by simp [h1, h2]), if_pos rfl, h3]
    rfl
  · rw [add_newlines_zero_eq]
    simp only [committedBody, maximalCommentSuffix_length]
    by_cases hcm :
        0 < commentMatchesLoop (pySplitlines
          (if (['\n', '\n'] : Str).isSuffixOf buffer then fmted ++ ['\n'] else fmted)).reverse
    · simp [hcm, List.append_assoc]
    · simp [hcm, List.append_assoc]

/-- Claim C7, witness: pending buffer `x = 1`, black echoing it with a final
newline, and the held comment `# c` after output `r`: the final flush commits
the held comment right after the separator and before the body. -/
theorem claim_C7_witness :
    ∃ t, flush_buffer echoBlack ⟨("r\n").data, ("# c\n").data, false⟩ (("x = 1").data) 0
        false true = .ok t ∧
      t.result = ("r\n").data ++
          (if (⟨("r\n").data, ("# c\n").data, false⟩ : FmtState).first then []
            else ['\n', '\n']) ++
          ("# c\n").data ++
          committedBody
            (if (['\n', '\n'] : Str).isSuffixOf (("x = 1").data) then
              (("x = 1").data ++ ['\n']) ++ ['\n'] else (("x = 1").data ++ ['\n'])) ++
          t.lagging_comments :=
  claim_C7_theorem echoBlack ⟨("r\n").data, ("# c\n").data, false⟩ (("x = 1").data)
    (("x = 1").data ++ ['\n']) (by decide) (by decide) rfl

theorem replaceGo_no_occur (pat rep : Str) (fuel : Nat) (s : Str)
    (h : containsSub pat s = false) : replaceGo pat rep fuel s = s := by
  induction fuel generalizing s with
  | zero => rfl
  | succ n ih =>
    cases s with
    | nil => rfl
    | cons c rest =>
      unfold containsSub at h
      rw [Bool.or_eq_false_iff] at h
      unfold replaceGo
      rw [if_neg (by simp [h.1])]
      rw [ih rest h.2]

theorem containsSub_single (c : Char) (s : Str) (h : c ∉ s) :
    containsSub [c] s = false := by
  induction s with
  | nil => rfl
  | cons a as ih =>
    unfold containsSub
    rw [Bool.or_eq_false_iff]
    refine ⟨?_, ih (fun hm => h (List.mem_cons_of_mem a hm))⟩
    have hca : ¬(c = a) := fun hh => h (hh ▸ List.mem_cons_self a as)
    simp [List.isPrefixOf, hca]

theorem stringFormatGo_no_match (u : Str) (d fuel : Nat) (s : Str)
    (h : findMatch s = none) : stringFormatGo u d fuel s = textwrapIndent s u := by
  cases fuel with
  | zero => rfl
  | succ n =>
    unfold stringFormatGo
    rw [h]

set_option maxHeartbeats 1000000 in
theorem splitlinesKeepGo_line (acc val : Str) (h : ∀ c ∈ val, isLineBreak c = false) :
    splitlinesKeepGo acc (val ++ ['\n']) = [acc.reverse ++ val ++ ['\n']] := by
  induction val generalizing acc with
  | nil =>
    rw [List.nil_append]
    rw [splitlinesKeepGo.eq_3 acc '\n' []
      (by intro r2 hc _; exact absurd hc (by decide))]
    rw [if_pos (by decide), splitlinesKeepGo.eq_1]
    simp
  | cons c cs ih =>
    have hc : isLineBreak c = false := h c (List.mem_cons_self _ _)
    have hcr : ∀ r2, c = '\r' → cs ++ ['\n'] = '\n' :: r2 → False := by
      intro r2 hcc _
      rw [hcc] at hc
      exact absurd hc (by decide)
    rw [List.cons_append, splitlinesKeepGo.eq_3 _ _ _ hcr, if_neg (by simp [hc])]
    rw [ih (c :: acc) (fun x hx => h x (List.mem_cons_of_mem _ hx))]
    simp

theorem hasContent_append_nl (val : Str) : hasContent (val ++ ['\n']) = hasContent val := by
  have hnl : isPyWs '\n' = true := by decide
  simp [hasContent, List.any_append, hnl]

theorem textwrapIndent_line (val u : Str) (h1 : ∀ c ∈ val, isLineBreak c = false)
    (h2 : hasContent val = true) :
    textwrapIndent (val ++ ['\n']) u = u ++ val ++ ['\n'] := by
  unfold textwrapIndent pySplitlinesKeep
  rw [splitlinesKeepGo_line [] val h1]
  simp only [List.reverse_nil, List.nil_append, List.map_cons, List.map_nil]
  rw [hasContent_append_nl, if_pos h2]
  simp [joinAll, List.append_assoc]

theorem dropWhile_eq_self_of_head {α : Type} (p : α → Bool) (l : List α)
    (h : ∀ c, l.head? = some c → p c = false) : l.dropWhile p = l := by
  cases l with
  | nil => rfl
  | cons a as => rw [List.dropWhile_cons, if_neg (by simp [h a rfl])]

theorem stripNL_spec (u val : Str) (hu : ∀ c ∈ u, c = ' ') (hval : val ≠ [])
    (hh : ∀ c ∈ val, c ≠ '\n') :
    stripNL (u ++ val ++ ['\n']) = u ++ val := by
  obtain ⟨v, vs, hv⟩ : ∃ v vs, val = v :: vs := by
    cases val with
    | nil => exact absurd rfl hval
    | cons v vs => exact ⟨v, vs, rfl⟩
  unfold stripNL
  have hfront : (u ++ val ++ ['\n']).dropWhile (fun c => c = '\n') = u ++ val ++ ['\n'] := by
    apply dropWhile_eq_self_of_head
    intro c hc
    cases u with
    | nil =>
      rw [List.nil_append, hv] at hc
      simp only [List.cons_append, List.head?_cons, Option.some.injEq] at hc
      rw [← hc]
      exact decide_eq_false (hh v (hv ▸ List.mem_cons_self v vs))
    | cons a as =>
      simp only [List.cons_append, List.head?_cons, Option.some.injEq] at hc
      rw [← hc]
      have ha := hu a (List.mem_cons_self a as)
      rw [ha]
      decide
  rw [hfront]
  have hrev : (u ++ val ++ ['\n']).reverse = '\n' :: (val.reverse ++ u.reverse) := by
    rw [List.append_assoc, List.reverse_append, List.reverse_append]
    rfl
  rw [hrev, List.dropWhile_cons, if_pos (by decide)]
  have hback : (val.reverse ++ u.reverse).dropWhile (fun c => c = '\n')
      = val.reverse ++ u.reverse := by
    apply dropWhile_eq_self_of_head
    intro c hc
    have hvne : val.reverse ≠ [] := by
      rw [hv]; simp
    obtain ⟨x, xs, hx⟩ : ∃ x xs, val.reverse = x :: xs := by
      cases hw : val.reverse with
      | nil => exact absurd hw hvne
      | cons x xs => exact ⟨x, xs, rfl⟩
    rw [hx] at hc
    simp only [List.cons_append, List.head?_cons, Option.some.injEq] at hc
    rw [← hc]
    have hmem : x ∈ val := by
      rw [← List.mem_reverse, hx]
      exact List.mem_cons_self _ _
    exact decide_eq_false (hh x hmem)
  rw [hback, List.reverse_append, List.reverse_reverse, List.reverse_reverse]

theorem repeatStr_TAB_mem (d : Nat) (c : Char) (h : c ∈ repeatStr TAB d) : c = ' ' := by
  induction d with
  | zero => cases h
  | succ n ih =>
    unfold repeatStr at h
    rcases List.mem_append.mp h with h | h
    · simp [TAB] at h
      exact h
    · exact ih h

/-- `format_param` on a clean single-parameter value: parse check passing,
black echoing the value plus a newline, no triple-quoted span, a single
contentful line. -/
theorem format_param_clean (ast : AstOracle) (black : BlackOracle) (val lnb : Str)
    (ti : Nat) (inl : Bool)
    (h1 : ast (("param(").data ++ val ++ (")").data) = true)
    (h2 : black val = some (val ++ ['\n']))
    (h3 : findMatch (val ++ ['\n']) = none)
    (h4 : ∀ c ∈ val, isLineBreak c = false)
    (h5 : hasContent val = true) :
    format_param ast black ⟨val, false, [], [], lnb⟩ ti inl true
      = .ok ((repeatStr TAB (if inl then 0 else ti) ++ val) ++ ['\n']) := by
  have hnn : ∀ c ∈ val, c ≠ '\n' := by
    intro c hc hcn
    have := h4 c hc
    rw [hcn] at this
    exact absurd this (by decide)
  have hps : paramStr ⟨val, false, [], [], lnb⟩ = val := rfl
  have hcoll : pyReplace ['\n'] [] val = val :=
    replaceGo_no_occur _ _ _ _
      (containsSub_single '\n' val (fun hm => hnn '\n' hm rfl))
  have hsf : ∀ d : Nat, string_format (val ++ ['\n']) d
      = repeatStr TAB d ++ val ++ ['\n'] := by
    intro d
    unfold string_format
    rw [stringFormatGo_no_match _ _ _ _ h3]
    exact textwrapIndent_line val (repeatStr TAB d) h4 h5
  have hstrip : ∀ d : Nat, stripNL (repeatStr TAB d ++ val ++ ['\n'])
      = repeatStr TAB d ++ val := by
    intro d
    exact stripNL_spec (repeatStr TAB d) val (fun c hc => repeatStr_TAB_mem d c hc)
      (hasContent_ne_nil val h5) hnn
  unfold format_param
  rw [hps]
  rw [if_neg (by rw [h1]; simp)]
  cases inl with
  | false =>
    simp only [Bool.false_eq_true, if_false]
    rw [h2]
    simp only [Bool.false_eq_true, if_false]
    rw [hsf ti, hstrip ti]
    simp [List.intercalate]
  | true =>
    simp only [if_true]
    rw [hcoll, h2]
    simp only [Bool.false_eq_true, if_false]
    rw [hsf 0, hstrip 0]
    simp [List.intercalate]

/-- Claim C8: a single-parameter group of the non-rule-inline kind
(`SingleParam`) with a clean value renders block style inside a rule-like
context — the keyword line ends in a line break and the parameter stands on
its own line one indent level deeper than the keyword — while the very same
group outside a rule-like context renders inline on the keyword's line after
a single space. -/
theorem claim_C8_theorem (ast : AstOracle) (black : BlackOracle)
    (kw cm val lnb : Str) (ti : Nat)
    (h1 : ast (("param(").data ++ val ++ (")").data) = true)
    (h2 : black val = some (val ++ ['\n']))
    (h3 : findMatch (val ++ ['\n']) = none)
    (h4 : ∀ c ∈ val, isLineBreak c = false)
    (h5 : hasContent val = true) :
    format_params ast black ⟨PKind.singleParam, kw, cm, ti, [⟨val, false, [], [], lnb⟩]⟩ true
        = .ok ((repeatStr TAB (ti - 1) ++ kw ++ [':'] ++ cm ++ ['\n']) ++
            ((repeatStr TAB ti ++ val) ++ ['\n'])) ∧
    format_params ast black ⟨PKind.singleParam, kw, cm, ti, [⟨val, false, [], [], lnb⟩]⟩ false
        = .ok ((repeatStr TAB (ti - 1) ++ kw ++ [':'] ++ cm ++ [' ']) ++ (val ++ ['\n'])) := by
  have hblock := format_param_clean ast black val lnb ti false h1 h2 h3 h4 h5
  have hinline := format_param_clean ast black val lnb ti true h1 h2 h3 h4 h5
  constructor
  · unfold format_params formatParamsGo
    simp only [PKind.isSingleParam]
    rw [if_pos (by constructor <;> simp)]
    rw [hblock]
    simp [formatParamsGo, List.append_assoc]
  · unfold format_params formatParamsGo
    simp only [PKind.isSingleParam]
    rw [if_neg (by simp)]
    rw [hinline]
    simp [formatParamsGo, List.append_assoc, repeatStr]

/-- Claim C8, witness: keyword `input` at target indent 2 with the single
parameter `"x.txt"` — block style inside a rule (`    input:` then
`        "x.txt"`), inline outside (`    input: "x.txt"`), exactly the spec's
round-trip strings. -/
theorem claim_C8_witness :
    format_params yesAst echoBlack
        ⟨PKind.singleParam, ("input").data, [], 2,
          [⟨("\"x.txt\"").data, false, [], [], ("L2: ").data⟩]⟩ true
        = .ok ((repeatStr TAB (2 - 1) ++ ("input").data ++ [':'] ++ [] ++ ['\n']) ++
            ((repeatStr TAB 2 ++ ("\"x.txt\"").data) ++ ['\n'])) ∧
    format_params yesAst echoBlack
        ⟨PKind.singleParam, ("input").data, [], 2,
          [⟨("\"x.txt\"").data, false, [], [], ("L2: ").data⟩]⟩ false
        = .ok ((repeatStr TAB (2 - 1) ++ ("input").data ++ [':'] ++ [] ++ [' ']) ++
            ((("\"x.txt\"").data ++ ['\n']))) :=
  claim_C8_theorem yesAst echoBlack ("input").data [] ("\"x.txt\"").data ("L2: ").data 2
    (by decide) rfl (by decide) (by decide) (by decide)

set_option maxHeartbeats 1000000 in
theorem splitlinesKeepGo_join (acc t : Str) :
    joinAll (splitlinesKeepGo acc t) = acc.reverse ++ t := by
  induction acc, t using splitlinesKeepGo.induct with
  | case1 =>
    rw [splitlinesKeepGo.eq_1]
    simp [joinAll]
  | case2 acc hne =>
    rw [splitlinesKeepGo.eq_1, if_neg hne]
    simp [joinAll]
  | case3 acc rest ih =>
    rw [splitlinesKeepGo.eq_2]
    simp only [joinAll, List.flatten_cons] at ih ⊢
    rw [ih]
    simp
  | case4 acc c rest hne hlb ih =>
    rw [splitlinesKeepGo.eq_3 _ _ _ (by intro r2 ha hb; exact hne r2 ha hb), if_pos hlb]
    simp only [joinAll, List.flatten_cons] at ih ⊢
    rw [ih]
    simp
  | case5 acc c rest hne hlb ih =>
    rw [splitlinesKeepGo.eq_3 _ _ _ (by intro r2 ha hb; exact hne r2 ha hb), if_neg hlb]
    rw [ih]
    simp

theorem count_joinAll_map (ch : Char) (f : Str → Str) (ls : List Str)
    (h : ∀ l ∈ ls, countChar ch (f l) = countChar ch l) :
    countChar ch (joinAll (ls.map f)) = countChar ch (joinAll ls) := by
  induction ls with
  | nil => rfl
  | cons l rest ih =>
    simp only [List.map_cons, joinAll, List.flatten_cons, countChar, List.count_append]
    have h1 := h l (List.mem_cons_self _ _)
    simp only [countChar] at h1
    rw [h1]
    have h2 := ih (fun x hx => h x (List.mem_cons_of_mem _ hx))
    simp only [countChar, joinAll] at h2
    rw [h2]

theorem count_textwrapIndent (ch : Char) (t u : Str) (h : ch ∉ u) :
    countChar ch (textwrapIndent t u) = countChar ch t := by
  unfold textwrapIndent
  rw [count_joinAll_map]
  · have := splitlinesKeepGo_join [] t
    unfold pySplitlinesKeep
    rw [this]
    simp
  · intro l _
    by_cases hc : hasContent l = true
    · simp only [hc, if_true, countChar, List.count_append]
      rw [List.count_eq_zero_of_not_mem h, Nat.zero_add]
    · simp [hc]

theorem mem_tabRepl (c : Char) (s : Str) (h : c ∈ tabRepl s) : c = ' ' ∨ (c ∈ s ∧ c ≠ '\t') := by
  unfold tabRepl at h
  obtain ⟨a, ha, hc⟩ := List.mem_flatMap.mp h
  by_cases hat : a = '\t'
  · rw [if_pos hat] at hc
    left
    simp [TAB] at hc
    exact hc
  · rw [if_neg hat] at hc
    simp only [List.mem_singleton] at hc
    subst hc
    exact Or.inr ⟨ha, hat⟩

theorem tabRepl_no_tab (s : Str) : '\t' ∉ tabRepl s := by
  intro h
  rcases mem_tabRepl '\t' s h with h | h
  · cases h
  · exact h.2 rfl

theorem mem_replaceGo (c : Char) (pat rep : Str) (fuel : Nat) (s : Str)
    (h : c ∈ replaceGo pat rep fuel s) : c ∈ rep ∨ c ∈ s := by
  induction fuel generalizing s with
  | zero => exact Or.inr h
  | succ n ih =>
    cases s with
    | nil => cases h
    | cons a rest =>
      unfold replaceGo at h
      by_cases hp : (!pat.isEmpty && pat.isPrefixOf (a :: rest)) = true
      · rw [if_pos hp] at h
        rcases List.mem_append.mp h with h | h
        · exact Or.inl h
        · rcases ih _ h with h | h
          · exact Or.inl h
          · exact Or.inr (List.mem_of_mem_drop h)
      · rw [if_neg hp] at h
        rcases List.mem_cons.mp h with h | h
        · exact Or.inr (h ▸ List.mem_cons_self a rest)
        · rcases ih _ h with h | h
          · exact Or.inl h
          · exact Or.inr (List.mem_cons_of_mem _ h)

theorem mem_splitOnNL (l : Str) (t : Str) (hl : l ∈ splitOnNL t) (c : Char) (hc : c ∈ l) :
    c ∈ t := by
  induction t generalizing l with
  | nil =>
    unfold splitOnNL at hl
    simp only [List.mem_singleton] at hl
    subst hl
    cases hc
  | cons a rest ih =>
    unfold splitOnNL at hl
    by_cases ha : a = '\n'
    · rw [if_pos ha] at hl
      rcases List.mem_cons.mp hl with h | h
      · subst h; cases hc
      · exact List.mem_cons_of_mem _ (ih l h hc)
    · rw [if_neg ha] at hl
      cases hrest : splitOnNL rest with
      | nil =>
        rw [hrest] at hl
        simp only [List.mem_singleton] at hl
        subst hl
        simp only [List.mem_singleton] at hc
        exact hc ▸ List.mem_cons_self a rest
      | cons l1 ls =>
        rw [hrest] at hl
        rcases List.mem_cons.mp hl with h | h
        · subst h
          rcases List.mem_cons.mp hc with h | h
          · exact h ▸ List.mem_cons_self a rest
          · exact List.mem_cons_of_mem _ (ih l1 (hrest ▸ List.mem_cons_self l1 ls) h)
        · exact List.mem_cons_of_mem _ (ih l (hrest ▸ List.mem_cons_of_mem l1 h) hc)

theorem mem_joinNL (c : Char) (ls : List Str) (h : c ∈ joinNL ls) :
    c = '\n' ∨ ∃ l ∈ ls, c ∈ l := by
  induction ls with
  | nil => cases h
  | cons l rest ih =>
    cases rest with
    | nil =>
      right
      exact ⟨l, List.mem_cons_self _ _, h⟩
    | cons b bs =>
      rw [joinNL_cons _ _ (by simp)] at h
      rcases List.mem_append.mp h with h | h
      · exact Or.inr ⟨l, List.mem_cons_self _ _, h⟩
      · rcases List.mem_cons.mp h with h | h
        · exact Or.inl h
        · rcases ih h with h | ⟨l2, hl2, hc2⟩
          · exact Or.inl h
          · exact Or.inr ⟨l2, List.mem_cons_of_mem _ hl2, hc2⟩

theorem mem_textwrapDedent (c : Char) (t : Str) (h : c ∈ textwrapDedent t) :
    c ∈ t ∨ c = '\n' := by
  unfold textwrapDedent at h
  rcases mem_joinNL c _ h with h | ⟨l, hl, hc⟩
  · exact Or.inr h
  · obtain ⟨l1, hl1, hfl1⟩ := List.mem_map.mp hl
    obtain ⟨l0, hl0, hfl0⟩ := List.mem_map.mp hl1
    subst hfl1
    subst hfl0
    left
    have hcl : c ∈ dedentNorm l0 := by
      by_cases hcond :
          (!(dedentMargin t).isEmpty && (dedentMargin t).isPrefixOf (dedentNorm l0)) = true
      · rw [if_pos hcond] at hc
        exact List.mem_of_mem_drop hc
      · rw [if_neg hcond] at hc
        exact hc
    have hcl0 : c ∈ l0 := by
      unfold dedentNorm at hcl
      by_cases hw : wsOnlyLine l0 = true
      · rw [if_pos hw] at hcl
        cases hcl
      · rw [if_neg hw] at hcl
        exact hcl
    exact mem_splitOnNL l0 t hl0 c hcl0

theorem replaceGo_single (a : Char) (rep : Str) (fuel : Nat) (s : Str)
    (h : s.length ≤ fuel) :
    replaceGo [a] rep fuel s = s.flatMap (fun c => if c = a then rep else [c]) := by
  induction fuel generalizing s with
  | zero =>
    have hnil : s = [] := List.eq_nil_of_length_eq_zero (Nat.le_zero.mp h)
    subst hnil
    rfl
  | succ n ih =>
    cases s with
    | nil => rfl
    | cons c rest =>
      simp only [List.length_cons] at h
      unfold replaceGo
      by_cases hc : c = a
      · subst hc
        rw [if_pos (by simp [List.isPrefixOf])]
        rw [List.flatMap_cons, if_pos rfl]
        have hdrop : (c :: rest).drop ([c] : Str).length = rest := rfl
        rw [hdrop, ih rest (by omega)]
      · rw [if_neg (by simp [List.isPrefixOf, Ne.symm hc])]
        rw [List.flatMap_cons, if_neg hc]
        rw [ih rest (by omega)]
        rfl

theorem pyReplace_tab (s : Str) : pyReplace ['\t'] TAB s = tabRepl s :=
  replaceGo_single '\t' TAB s.length s le_rfl

theorem sliceFormat_no_tab (slice : Str) (d : Nat) :
    '\t' ∉ sliceFormat slice (repeatStr TAB d) d := by
  intro h
  have hu : ∀ c ∈ repeatStr TAB d, c = ' ' := fun c hc => repeatStr_TAB_mem d c hc
  unfold sliceFormat at h
  rw [pyReplace_tab] at h
  by_cases hcond : 0 < countChar '\n' (tabRepl slice) ∧ 0 < d
  · rw [if_pos hcond] at h
    have hmem := h
    unfold textwrapIndent at hmem
    rcases List.mem_flatten.mp hmem with ⟨l2, hl2, hc2⟩
    obtain ⟨l3, hl3, hfl3⟩ := List.mem_map.mp hl2
    subst hfl3
    have hc3 : '\t' ∈ repeatStr TAB d ∨ '\t' ∈ l3 := by
      by_cases hcc : hasContent l3 = true
      · rw [if_pos hcc] at hc2
        rcases List.mem_append.mp hc2 with hx | hx
        · exact Or.inl hx
        · exact Or.inr hx
      · rw [if_neg hcc] at hc2
        exact Or.inr hc2
    rcases hc3 with hx | hx
    · exact absurd (hu _ hx) (by decide)
    · have hjoin : '\t' ∈ (['\"', '\"', '\"'] ++
          textwrapDedent (pyReplace ['\"', '\"', '\"'] [] (tabRepl slice)) ++
          ['\"', '\"', '\"']) := by
        have hjn := splitlinesKeepGo_join []
          (['\"', '\"', '\"'] ++
            textwrapDedent (pyReplace ['\"', '\"', '\"'] [] (tabRepl slice)) ++
            ['\"', '\"', '\"'])
        rw [List.reverse_nil, List.nil_append] at hjn
        rw [← hjn]
        exact List.mem_flatten.mpr ⟨l3, hl3, hx⟩
      rcases List.mem_append.mp hjoin with hy | hy
      · rcases List.mem_append.mp hy with hz | hz
        · simp at hz
        · rcases mem_textwrapDedent _ _ hz with hz2 | hz2
          · rcases mem_replaceGo _ _ _ _ _ hz2 with hz3 | hz3
            · cases hz3
            · exact tabRepl_no_tab slice hz3
          · cases hz2
      · simp at hy
  · rw [if_neg hcond] at h
    rcases List.mem_append.mp h with hx | hx
    · exact absurd (hu _ hx) (by decide)
    · exact tabRepl_no_tab slice hx

theorem tripleAt_length (q : Char) (s : Str) (h : tripleAt q s = true) : 3 ≤ s.length := by
  cases s with
  | nil => cases h
  | cons a s1 =>
    cases s1 with
    | nil => cases h
    | cons b s2 =>
      cases s2 with
      | nil => cases h
      | cons c s3 => simp

theorem findTripleIdx_bound (q : Char) (s : Str) (j : Nat)
    (h : findTripleIdx q s = some j) : j + 3 ≤ s.length := by
  induction s generalizing j with
  | nil => cases h
  | cons a rest ih =>
    unfold findTripleIdx at h
    by_cases ht : tripleAt q (a :: rest) = true
    · rw [if_pos ht] at h
      have := tripleAt_length q (a :: rest) ht
      simp only [Option.some.injEq] at h
      omega
    · rw [if_neg ht] at h
      cases hf : findTripleIdx q rest with
      | none => rw [hf] at h; cases h
      | some j2 =>
        rw [hf] at h
        simp at h
        have := ih j2 hf
        simp only [List.length_cons]
        omega

theorem matchLenAt_bound (s : Str) (m : Nat) (h : matchLenAt s = some m) :
    1 ≤ m ∧ m ≤ s.length := by
  unfold matchLenAt at h
  by_cases h1 : tripleAt '\"' s = true
  · rw [if_pos h1] at h
    cases hf : findTripleIdx '\"' (s.drop 3) with
    | none => rw [hf] at h; cases h
    | some j =>
      rw [hf] at h
      simp at h
      have hb := findTripleIdx_bound '\"' (s.drop 3) j hf
      have hl3 := tripleAt_length '\"' s h1
      rw [List.length_drop] at hb
      omega
  · rw [if_neg h1] at h
    by_cases h2 : tripleAt '\'' s = true
    · rw [if_pos h2] at h
      cases hf : findTripleIdx '\'' (s.drop 3) with
      | none => rw [hf] at h; cases h
      | some j =>
        rw [hf] at h
        simp at h
        have hb := findTripleIdx_bound '\'' (s.drop 3) j hf
        have hl3 := tripleAt_length '\'' s h2
        rw [List.length_drop] at hb
        omega
    · rw [if_neg h2] at h
      cases h

theorem findMatch_bound (s : Str) (g m : Nat) (h : findMatch s = some (g, m)) :
    1 ≤ m ∧ g + m ≤ s.length := by
  induction s generalizing g m with
  | nil => cases h
  | cons a rest ih =>
    unfold findMatch at h
    cases hm : matchLenAt (a :: rest) with
    | some m2 =>
      rw [hm] at h
      simp only [Option.some.injEq, Prod.mk.injEq] at h
      have hb := matchLenAt_bound (a :: rest) m2 hm
      omega
    | none =>
      rw [hm] at h
      cases hf : findMatch rest with
      | none => rw [hf] at h; cases h
      | some p =>
        obtain ⟨g2, m2⟩ := p
        rw [hf] at h
        simp at h
        have := ih g2 m2 (by rw [hf])
        simp only [List.length_cons]
        omega

theorem stringFormatGo_tab_count (d fuel : Nat) (s : Str) (hfu : s.length ≤ fuel) :
    countChar '\t' (stringFormatGo (repeatStr TAB d) d fuel s)
      = countChar '\t' (gapsGo fuel s) := by
  have hnu : '\t' ∉ repeatStr TAB d := by
    intro hx
    exact absurd (repeatStr_TAB_mem d _ hx) (by decide)
  induction fuel generalizing s with
  | zero =>
    have hnil : s = [] := List.eq_nil_of_length_eq_zero (Nat.le_zero.mp hfu)
    subst hnil
    rfl
  | succ n ih =>
    unfold stringFormatGo gapsGo
    cases hfm : findMatch s with
    | none => rw [count_textwrapIndent _ _ _ hnu]
    | some p =>
      obtain ⟨g, m⟩ := p
      obtain ⟨hm1, hm2⟩ := findMatch_bound s g m hfm
      simp only [countChar, List.count_append]
      have hA : List.count '\t' (textwrapIndent (s.take g) (repeatStr TAB d))
          = List.count '\t' (s.take g) := count_textwrapIndent _ _ _ hnu
      have hB : List.count '\t' (sliceFormat ((s.drop g).take m) (repeatStr TAB d) d) = 0 :=
        List.count_eq_zero_of_not_mem (sliceFormat_no_tab _ d)
      have hC := ih (s.drop (g + m)) (by rw [List.length_drop]; omega)
      simp only [countChar] at hC
      rw [hA, hB, hC]
      omega

/-- Claim C10: at every target indent depth, including depth 0,
`string_format` replaces every tab character inside a triple-delimited
literal span with the (all-spaces) `TAB` unit and leaves tab characters
outside such spans unchanged: the formatted output carries exactly the tab
characters of the concatenated non-span gaps — the span contributions are
tab-free, and the gap text (only ever extended with space indents) keeps its
tabs — and the `TAB` unit itself is made of spaces. -/
theorem claim_C10_theorem (s : Str) (d : Nat) :
    countChar '\t' (string_format s d) = countChar '\t' (tripleQuoteGaps s) ∧
    TAB.all (fun c => c = ' ') = true :=
  ⟨stringFormatGo_tab_count d s.length s le_rfl, by decide⟩

theorem splitOnNL_ne_nil (t : Str) : splitOnNL t ≠ [] := by
  cases t with
  | nil => simp [splitOnNL]
  | cons c rest =>
    unfold splitOnNL
    by_cases hc : c = '\n'
    · simp [hc]
    · rw [if_neg hc]
      cases splitOnNL rest <;> simp

theorem splitOnNL_no_nl (t : Str) : ∀ l ∈ splitOnNL t, '\n' ∉ l := by
  induction t with
  | nil =>
    intro l hl
    unfold splitOnNL at hl
    simp only [List.mem_singleton] at hl
    subst hl
    simp
  | cons c rest ih =>
    intro l hl
    unfold splitOnNL at hl
    by_cases hc : c = '\n'
    · rw [if_pos hc] at hl
      rcases List.mem_cons.mp hl with h | h
      · subst h; simp
      · exact ih l h
    · rw [if_neg hc] at hl
      cases hr : splitOnNL rest with
      | nil => exact absurd hr (splitOnNL_ne_nil rest)
      | cons l1 ls =>
        rw [hr] at hl
        rcases List.mem_cons.mp hl with h | h
        · subst h
          intro hmem
          rcases List.mem_cons.mp hmem with h2 | h2
          · exact hc h2.symm
          · exact ih l1 (hr ▸ List.mem_cons_self _ _) h2
        · exact ih l (hr ▸ List.mem_cons_of_mem _ h)

theorem joinNL_splitOnNL (t : Str) : joinNL (splitOnNL t) = t := by
  induction t with
  | nil => rfl
  | cons c rest ih =>
    unfold splitOnNL
    by_cases hc : c = '\n'
    · rw [if_pos hc]
      subst hc
      cases hr : splitOnNL rest with
      | nil => exact absurd hr (splitOnNL_ne_nil rest)
      | cons l1 ls =>
        rw [joinNL_cons _ _ (by simp)]
        rw [← hr, ih]
        rfl
    · rw [if_neg hc]
      cases hr : splitOnNL rest with
      | nil => exact absurd hr (splitOnNL_ne_nil rest)
      | cons l1 ls =>
        cases ls with
        | nil =>
          have ih2 : joinNL [l1] = rest := by rw [← hr]; exact ih
          unfold joinNL at ih2 ⊢
          rw [← ih2]
        | cons l2 ls2 =>
          rw [joinNL_cons _ _ (by simp)]
          have ih2 : joinNL (l1 :: l2 :: ls2) = rest := by rw [← hr]; exact ih
          rw [joinNL_cons _ _ (by simp)] at ih2
          rw [← ih2]
          rfl

theorem splitOnNL_cons_nl (rest : Str) : splitOnNL ('\n' :: rest) = [] :: splitOnNL rest := by
  rw [splitOnNL.eq_2, if_pos rfl]

theorem splitOnNL_cons_ne (c : Char) (rest : Str) (hc : ¬(c = '\n')) (l : Str)
    (ls : List Str) (hr : splitOnNL rest = l :: ls) :
    splitOnNL (c :: rest) = (c :: l) :: ls := by
  rw [splitOnNL.eq_2, if_neg hc, hr]

theorem splitOnNL_nlfree (l : Str) (h : '\n' ∉ l) : splitOnNL l = [l] := by
  induction l with
  | nil => rfl
  | cons c cs ih =>
    have hc : ¬(c = '\n') := by
      intro hh
      apply h
      rw [hh]
      exact List.mem_cons_self _ _
    exact splitOnNL_cons_ne c cs hc cs []
      (ih (fun hh => h (List.mem_cons_of_mem c hh)))

theorem splitOnNL_append_left (a t : Str) (h : '\n' ∉ a) :
    splitOnNL (a ++ t) = consHead a (splitOnNL t) := by
  induction a with
  | nil =>
    cases hr : splitOnNL t with
    | nil => exact absurd hr (splitOnNL_ne_nil t)
    | cons l ls => simp only [List.nil_append, hr, consHead, List.nil_append]
  | cons c cs ih =>
    have hc : ¬(c = '\n') := by
      intro hh
      apply h
      rw [hh]
      exact List.mem_cons_self _ _
    have hcs : '\n' ∉ cs := fun hh => h (List.mem_cons_of_mem c hh)
    rw [List.cons_append]
    cases hr : splitOnNL t with
    | nil => exact absurd hr (splitOnNL_ne_nil t)
    | cons l ls =>
      have hmid : splitOnNL (cs ++ t) = (cs ++ l) :: ls := by
        rw [ih hcs, hr]
        rfl
      rw [splitOnNL_cons_ne c (cs ++ t) hc (cs ++ l) ls hmid]
      simp [hr, consHead]

theorem appendLast_cons (a : Str) (l : Str) (ls : List Str) (h : ls ≠ []) :
    appendLast a (l :: ls) = l :: appendLast a ls := by
  cases ls with
  | nil => exact absurd rfl h
  | cons l2 ls2 => rfl

theorem splitOnNL_append_right (t a : Str) (h : '\n' ∉ a) :
    splitOnNL (t ++ a) = appendLast a (splitOnNL t) := by
  induction t with
  | nil =>
    rw [List.nil_append, splitOnNL_nlfree a h]
    rfl
  | cons c rest ih =>
    rw [List.cons_append]
    by_cases hc : c = '\n'
    · subst hc
      rw [splitOnNL_cons_nl (rest ++ a), ih, splitOnNL_cons_nl rest]
      rw [appendLast_cons _ _ _ (splitOnNL_ne_nil rest)]
    · cases hr : splitOnNL rest with
      | nil => exact absurd hr (splitOnNL_ne_nil rest)
      | cons l1 ls =>
        cases ls with
        | nil =>
          have hmid : splitOnNL (rest ++ a) = (l1 ++ a) :: [] := by
            rw [ih, hr]
            rfl
          rw [splitOnNL_cons_ne c (rest ++ a) hc (l1 ++ a) [] hmid]
          rw [splitOnNL_cons_ne c rest hc l1 [] hr]
          rfl
        | cons l2 ls2 =>
          have hmid : splitOnNL (rest ++ a) = l1 :: appendLast a (l2 :: ls2) := by
            rw [ih, hr, appendLast_cons _ _ _ (by simp)]
          rw [splitOnNL_cons_ne c (rest ++ a) hc l1 (appendLast a (l2 :: ls2)) hmid]
          rw [splitOnNL_cons_ne c rest hc l1 (l2 :: ls2) hr]
          rw [appendLast_cons _ (c :: l1) (l2 :: ls2) (by simp)]

theorem splitOnNL_joinNL (ls : List Str) (hne : ls ≠ [])
    (h : ∀ l ∈ ls, '\n' ∉ l) : splitOnNL (joinNL ls) = ls := by
  induction ls with
  | nil => exact absurd rfl hne
  | cons l rest ih =>
    cases rest with
    | nil => exact splitOnNL_nlfree l (h l (List.mem_cons_self _ _))
    | cons l2 ls2 =>
      rw [joinNL_cons _ _ (by simp)]
      rw [splitOnNL_append_left l ('\n' :: joinNL (l2 :: ls2))
        (h l (List.mem_cons_self _ _))]
      rw [splitOnNL_cons_nl (joinNL (l2 :: ls2)),
        ih (by simp) (fun x hx2 => h x (List.mem_cons_of_mem _ hx2))]
      simp [consHead]

theorem klines_cons (l : Str) (ls : List Str) (h : ls ≠ []) :
    klines (l :: ls) = (l ++ ['\n']) :: klines ls := by
  cases ls with
  | nil => exact absurd rfl h
  | cons l2 ls2 => rfl

set_option maxHeartbeats 1000000 in
theorem splitlinesKeepGo_klines (acc t : Str) :
    (∀ c ∈ t, isLineBreak c = true → c = '\n') →
      splitlinesKeepGo acc t = klines (consHead acc.reverse (splitOnNL t)) := by
  induction acc, t using splitlinesKeepGo.induct with
  | case1 =>
    intro _
    rw [splitlinesKeepGo.eq_1, splitOnNL.eq_1]
    simp [consHead, klines]
  | case2 acc hne =>
    intro _
    rw [splitlinesKeepGo.eq_1, if_neg hne, splitOnNL.eq_1]
    simp only [consHead, List.append_nil, klines]
    rw [if_neg (by simp [hne])]
  | case3 acc rest ih =>
    intro hnl
    exact absurd (hnl '\r' (List.mem_cons_self _ _) (by decide)) (by decide)
  | case4 acc c rest hne hlb ih =>
    intro hnl
    have hcn : c = '\n' := hnl c (List.mem_cons_self _ _) hlb
    subst hcn
    rw [splitlinesKeepGo.eq_3 _ _ _ (by intro r2 ha hb; exact hne r2 ha hb), if_pos hlb]
    rw [splitOnNL_cons_nl rest]
    cases hr : splitOnNL rest with
    | nil => exact absurd hr (splitOnNL_ne_nil rest)
    | cons l ls =>
      have ihx := ih (fun x hx hlbx => hnl x (List.mem_cons_of_mem _ hx) hlbx)
      rw [hr] at ihx
      simp only [List.reverse_nil, consHead, List.nil_append] at ihx
      rw [ihx]
      simp only [consHead]
      rw [klines_cons _ (l :: ls) (by simp)]
      simp
  | case5 acc c rest hne hlb ih =>
    intro hnl
    have hcnn : ¬(c = '\n') := by
      intro hh
      rw [hh] at hlb
      exact hlb (by decide)
    rw [splitlinesKeepGo.eq_3 _ _ _ (by intro r2 ha hb; exact hne r2 ha hb), if_neg hlb]
    rw [ih (fun x hx hlbx => hnl x (List.mem_cons_of_mem _ hx) hlbx)]
    cases hr : splitOnNL rest with
    | nil => exact absurd hr (splitOnNL_ne_nil rest)
    | cons l ls =>
      rw [splitOnNL_cons_ne c rest hcnn l ls hr]
      simp [consHead, List.append_assoc]

theorem indLine_append_nl (u l : Str) :
    indLine u (l ++ ['\n']) = indLine u l ++ ['\n'] := by
  unfold indLine
  rw [hasContent_append_nl]
  by_cases hc : hasContent l = true
  · rw [if_pos hc, if_pos hc, List.append_assoc]
  · rw [if_neg hc, if_neg hc]

theorem joinAll_map_klines (u : Str) (ls : List Str) (hne : ls ≠ []) :
    joinAll ((klines ls).map (indLine u)) = joinNL (ls.map (indLine u)) := by
  induction ls with
  | nil => exact absurd rfl hne
  | cons l rest ih =>
    cases rest with
    | nil =>
      by_cases hl : l.isEmpty = true
      · have : l = [] := by
          cases l with
          | nil => rfl
          | cons a as => simp at hl
        subst this
        simp [klines, joinAll, joinNL, indLine, hasContent]
      · simp only [klines, hl, if_false, Bool.false_eq_true]
        simp [joinAll, joinNL]
    | cons l2 ls2 =>
      rw [klines_cons _ (l2 :: ls2) (by simp)]
      simp only [List.map_cons]
      rw [joinNL_cons (indLine u l) (indLine u l2 :: List.map (indLine u) ls2) (by simp)]
      simp only [joinAll, List.map_cons, List.flatten_cons]
      rw [indLine_append_nl]
      have ih2 := ih (by simp)
      simp only [joinAll, List.map_cons] at ih2
      rw [ih2]
      simp [List.append_assoc]

theorem textwrapIndent_nlOnly (t u : Str)
    (h : ∀ c ∈ t, isLineBreak c = true → c = '\n') :
    textwrapIndent t u = joinNL ((splitOnNL t).map (indLine u)) := by
  unfold textwrapIndent pySplitlinesKeep
  rw [splitlinesKeepGo_klines [] t h]
  simp only [List.reverse_nil]
  cases hr : splitOnNL t with
  | nil => exact absurd hr (splitOnNL_ne_nil t)
  | cons l ls =>
    simp only [consHead, List.nil_append]
    exact joinAll_map_klines u (l :: ls) (by simp)

theorem textwrapDedent_eq (t : Str) :
    textwrapDedent t = joinNL ((splitOnNL t).map (dedLine (dedentMargin t))) := by
  simp only [textwrapDedent, dedLine, List.map_map]
  rfl

theorem commonStart_prefix_left (a : Str) : ∀ b, commonStart a b <+: a := by
  induction a with
  | nil => intro b; cases b <;> exact List.nil_prefix
  | cons x xs ih =>
    intro b
    cases b with
    | nil => exact List.nil_prefix
    | cons y ys =>
      unfold commonStart
      by_cases h : x = y
      · rw [if_pos h]
        rw [List.cons_prefix_cons]
        exact ⟨rfl, ih ys⟩
      · rw [if_neg h]
        exact List.nil_prefix

theorem commonStart_prefix_right (a : Str) : ∀ b, commonStart a b <+: b := by
  induction a with
  | nil => intro b; cases b <;> exact List.nil_prefix
  | cons x xs ih =>
    intro b
    cases b with
    | nil => exact List.nil_prefix
    | cons y ys =>
      unfold commonStart
      by_cases h : x = y
      · rw [if_pos h]
        rw [List.cons_prefix_cons]
        exact ⟨h, ih ys⟩
      · rw [if_neg h]
        exact List.nil_prefix

theorem marginStep_prefix_left (m i : Str) : marginStep m i <+: m := by
  unfold marginStep
  by_cases h1 : m.isPrefixOf i = true
  · rw [if_pos h1]
  · rw [if_neg h1]
    by_cases h2 : i.isPrefixOf m = true
    · rw [if_pos h2]
      exact List.isPrefixOf_iff_prefix.mp h2
    · rw [if_neg h2]
      exact commonStart_prefix_left m i

theorem marginStep_prefix_right (m i : Str) : marginStep m i <+: i := by
  unfold marginStep
  by_cases h1 : m.isPrefixOf i = true
  · rw [if_pos h1]
    exact List.isPrefixOf_iff_prefix.mp h1
  · rw [if_neg h1]
    by_cases h2 : i.isPrefixOf m = true
    · rw [if_pos h2]
    · rw [if_neg h2]
      exact commonStart_prefix_right m i

theorem foldl_marginStep_prefix_init (is : List Str) : ∀ i, (is.foldl marginStep i) <+: i := by
  induction is with
  | nil => intro i; exact List.prefix_refl _
  | cons a as ih =>
    intro i
    rw [List.foldl_cons]
    exact (ih (marginStep i a)).trans (marginStep_prefix_left i a)

theorem foldl_marginStep_prefix (is : List Str) :
    ∀ i x, x ∈ i :: is → (is.foldl marginStep i) <+: x := by
  induction is with
  | nil =>
    intro i x hx
    simp only [List.mem_singleton] at hx
    subst hx
    exact List.prefix_refl _
  | cons a as ih =>
    intro i x hx
    rw [List.foldl_cons]
    rcases List.mem_cons.mp hx with h | h
    · subst h
      exact (foldl_marginStep_prefix_init as (marginStep x a)).trans
        (marginStep_prefix_left x a)
    · rcases List.mem_cons.mp h with h2 | h2
      · subst h2
        exact (foldl_marginStep_prefix_init as (marginStep i x)).trans
          (marginStep_prefix_right i x)
      · exact ih (marginStep i a) x (List.mem_cons_of_mem _ h2)

theorem dedentContent_not_wsOnly (l : Str) (h : dedentContentLine l = true) :
    wsOnlyLine l = false := by
  unfold dedentContentLine at h
  rcases List.any_eq_true.mp h with ⟨c, hc, hcp⟩
  unfold wsOnlyLine
  have hall : l.all (fun c => c = ' ' || c = '\t') = false := by
    by_contra hcontra
    rw [Bool.not_eq_false] at hcontra
    have hct := List.all_eq_true.mp hcontra c hc
    rw [hct] at hcp
    simp at hcp
  · rw [hall, Bool.and_false]

theorem dedentNorm_content (l : Str) (h : dedentContentLine l = true) :
    dedentNorm l = l := by
  unfold dedentNorm
  rw [dedentContent_not_wsOnly l h]
  rfl

theorem dedentMargin_prefix (t l : Str) (hl : l ∈ splitOnNL t)
    (hc : dedentContentLine l = true) : dedentMargin t <+: leadWs l := by
  have hmem3 : leadWs l
      ∈ (((splitOnNL t).map dedentNorm).filter dedentContentLine).map leadWs :=
    List.mem_map.mpr ⟨l,
      List.mem_filter.mpr ⟨List.mem_map.mpr ⟨l, hl, dedentNorm_content l hc⟩, hc⟩, rfl⟩
  unfold dedentMargin
  dsimp only
  cases hI : (((splitOnNL t).map dedentNorm).filter dedentContentLine).map leadWs with
  | nil =>
    rw [hI] at hmem3
    cases hmem3
  | cons i is =>
    rw [hI] at hmem3
    exact foldl_marginStep_prefix is i (leadWs l) hmem3

theorem leadWs_st (l : Str) : ∀ c ∈ leadWs l, (c = ' ' || c = '\t') = true := by
  intro c hc
  unfold leadWs at hc
  have h := List.mem_takeWhile_imp hc
  simpa using h

theorem leadWs_append_st (a b : Str) (h : ∀ c ∈ a, (c = ' ' || c = '\t') = true) :
    leadWs (a ++ b) = a ++ leadWs b := by
  induction a with
  | nil => simp
  | cons c cs ih =>
    rw [List.cons_append]
    unfold leadWs
    rw [List.takeWhile_cons]
    simp only [h c (List.mem_cons_self _ _), if_true]
    have ih2 := ih (fun x hx => h x (List.mem_cons_of_mem _ hx))
    unfold leadWs at ih2
    rw [ih2]
    rfl

theorem drop_length_takeWhile {α : Type} (p : α → Bool) (l : List α) :
    l.drop (l.takeWhile p).length = l.dropWhile p := by
  induction l with
  | nil => rfl
  | cons a as ih =>
    rw [List.takeWhile_cons, List.dropWhile_cons]
    by_cases h : p a = true
    · simp only [h, if_true, List.length_cons, List.drop_succ_cons]
      exact ih
    · simp [h]

theorem dropLeadWs_eq (l : Str) :
    dropLeadWs l = l.dropWhile (fun c => c = ' ' || c = '\t') :=
  drop_length_takeWhile _ l

theorem leadWs_dropLeadWs (l : Str) : leadWs (dropLeadWs l) = [] := by
  rw [dropLeadWs_eq]
  cases hdw : l.dropWhile (fun c => c = ' ' || c = '\t') with
  | nil => rfl
  | cons a as =>
    have ha : (fun c => decide (c = ' ') || decide (c = '\t')) a = false := by
      exact head?_dropWhile_not _ l a (by rw [hdw]; rfl)
    unfold leadWs
    rw [List.takeWhile_cons]
    simp only at ha
    rw [ha]
    rfl

theorem leadWs_decomp (l : Str) : l = leadWs l ++ dropLeadWs l := by
  rw [dropLeadWs_eq]
  exact (List.takeWhile_append_dropWhile _ _).symm

theorem dropLeadWs_append_st (a b : Str) (h : ∀ c ∈ a, (c = ' ' || c = '\t') = true)
    (hb : leadWs b = []) : dropLeadWs (a ++ b) = b := by
  have hlen : leadWsLen (a ++ b) = a.length := by
    unfold leadWsLen
    rw [leadWs_append_st a b h, hb, List.append_nil]
  show List.drop (leadWsLen (a ++ b)) (a ++ b) = b
  rw [hlen]
  exact List.drop_left a b

theorem drop_margin_spec (m l : Str) (h : m <+: leadWs l) :
    leadWs (l.drop m.length) = (leadWs l).drop m.length ∧
    dropLeadWs (l.drop m.length) = dropLeadWs l := by
  obtain ⟨T, hT⟩ := h
  have hmst : ∀ c ∈ m, (c = ' ' || c = '\t') = true := fun c hc =>
    leadWs_st l c (hT ▸ List.mem_append_left T hc)
  have hTst : ∀ c ∈ T, (c = ' ' || c = '\t') = true := fun c hc =>
    leadWs_st l c (hT ▸ List.mem_append_right m hc)
  have hldecomp : l = m ++ (T ++ dropLeadWs l) := by
    conv_lhs => rw [leadWs_decomp l]
    rw [← hT, List.append_assoc]
  have hdrop : l.drop m.length = T ++ dropLeadWs l := by
    conv_lhs => rw [hldecomp]
    exact List.drop_left m (T ++ dropLeadWs l)
  constructor
  · rw [hdrop, leadWs_append_st T _ hTst, leadWs_dropLeadWs, List.append_nil, ← hT,
      List.drop_left]
  · rw [hdrop]
    exact dropLeadWs_append_st T (dropLeadWs l) hTst (leadWs_dropLeadWs l)

theorem replaceGo_nil (pat rep : Str) (fuel : Nat) : replaceGo pat rep fuel [] = [] := by
  cases fuel <;> rfl

theorem replaceGo_cons (pat rep : Str) (fuel : Nat) (c : Char) (rest : Str) :
    replaceGo pat rep (fuel + 1) (c :: rest) =
      if !pat.isEmpty && pat.isPrefixOf (c :: rest) then
        rep ++ replaceGo pat rep fuel ((c :: rest).drop pat.length)
      else c :: replaceGo pat rep fuel rest := rfl

theorem findTripleIdx_cons (q : Char) (c : Char) (t : Str) :
    findTripleIdx q (c :: t) =
      if tripleAt q (c :: t) then some 0 else (findTripleIdx q t).map (· + 1) := rfl

theorem containsSub_cons_split (pat : Str) (c : Char) (rest : Str)
    (h : containsSub pat (c :: rest) = false) :
    pat.isPrefixOf (c :: rest) = false ∧ containsSub pat rest = false := by
  unfold containsSub at h
  exact Bool.or_eq_false_iff.mp h

theorem getLast_cons_tail (c : Char) (rest : Str) (h : (c :: rest).getLast? ≠ some '\"') :
    rest.getLast? ≠ some '\"' := by
  cases rest with
  | nil => simp
  | cons d r =>
    rw [List.getLast?_cons_cons] at h
    exact h

theorem tripleAt_false_mid (c : Char) (rest : Str)
    (h1 : containsSub q3 (c :: rest) = false) (h2 : (c :: rest).getLast? ≠ some '\"') :
    tripleAt '\"' (c :: (rest ++ q3)) = false := by
  cases rest with
  | nil =>
    have hc : ¬(c = '\"') := by simpa using h2
    show tripleAt '\"' (c :: '\"' :: '\"' :: ['\"']) = false
    simp [tripleAt, hc]
  | cons d r =>
    cases r with
    | nil =>
      have hd : ¬(d = '\"') := by simpa using h2
      show tripleAt '\"' (c :: d :: '\"' :: ['\"', '\"']) = false
      simp [tripleAt, hd]
    | cons e r2 =>
      have hpre := (containsSub_cons_split q3 c (d :: e :: r2) h1).1
      by_cases hc : c = '\"'
      · by_cases hdq : d = '\"'
        · by_cases he : e = '\"'
          · exfalso
            subst hc; subst hdq; subst he
            simp [q3, List.isPrefixOf] at hpre
          · simp [tripleAt, he]
        · simp [tripleAt, hdq]
      · simp [tripleAt, hc]

theorem q3_not_prefix_mid (c : Char) (rest : Str)
    (h1 : containsSub q3 (c :: rest) = false) (h2 : (c :: rest).getLast? ≠ some '\"') :
    q3.isPrefixOf (c :: (rest ++ q3)) = false := by
  cases rest with
  | nil =>
    have hc : ¬(c = '\"') := by simpa using h2
    show q3.isPrefixOf (c :: '\"' :: '\"' :: ['\"']) = false
    simp [q3, List.isPrefixOf, hc]
    intro hcc
    exact absurd hcc.symm hc
  | cons d r =>
    cases r with
    | nil =>
      have hd : ¬(d = '\"') := by simpa using h2
      show q3.isPrefixOf (c :: d :: '\"' :: ['\"', '\"']) = false
      simp [q3, List.isPrefixOf]
      intro _ hdd
      exact absurd hdd.symm hd
    | cons e r2 =>
      have hpre := (containsSub_cons_split q3 c (d :: e :: r2) h1).1
      show q3.isPrefixOf (c :: d :: e :: (r2 ++ q3)) = false
      by_cases hc : c = '\"'
      · by_cases hdq : d = '\"'
        · by_cases he : e = '\"'
          · exfalso
            subst hc; subst hdq; subst he
            simp [q3, List.isPrefixOf] at hpre
          · simp [q3, List.isPrefixOf]
            intro _ _ hee
            exact absurd hee.symm he
        · simp [q3, List.isPrefixOf]
          intro _ hdd
          exact absurd hdd.symm hdq
      · simp [q3, List.isPrefixOf]
        intro hcc
        exact absurd hcc.symm hc

theorem findTripleIdx_append_close (B : Str)
    (h1 : containsSub q3 B = false) (h2 : B.getLast? ≠ some '\"') :
    findTripleIdx '\"' (B ++ q3) = some B.length := by
  induction B with
  | nil => rfl
  | cons c rest ih =>
    have h1' := (containsSub_cons_split q3 c rest h1).2
    have h2' := getLast_cons_tail c rest h2
    rw [List.cons_append, findTripleIdx_cons]
    rw [if_neg (by rw [tripleAt_false_mid c rest h1 h2]; exact Bool.false_ne_true)]
    rw [ih h1' h2']
    rfl

theorem matchLenAt_q3_wrap (B : Str)
    (h1 : containsSub q3 B = false) (h2 : B.getLast? ≠ some '\"') :
    matchLenAt (q3 ++ B ++ q3) = some (B.length + 6) := by
  unfold matchLenAt
  have hta : tripleAt '\"' (q3 ++ B ++ q3) = true := by
    show tripleAt '\"' ('\"' :: '\"' :: '\"' :: (([] : Str) ++ B ++ q3)) = true
    simp [tripleAt]
  rw [if_pos hta]
  have hdrop : (q3 ++ B ++ q3).drop 3 = B ++ q3 := by
    rw [List.append_assoc]
    exact List.drop_left q3 (B ++ q3)
  rw [hdrop, findTripleIdx_append_close B h1 h2]
  rfl

theorem findMatch_q3_wrap (B : Str)
    (h1 : containsSub q3 B = false) (h2 : B.getLast? ≠ some '\"') :
    findMatch (q3 ++ B ++ q3) = some (0, B.length + 6) := by
  have hm := matchLenAt_q3_wrap B h1 h2
  have hcons : q3 ++ B ++ q3 = '\"' :: (['\"', '\"'] ++ B ++ q3) := by simp [q3]
  rw [hcons] at hm ⊢
  unfold findMatch
  rw [hm]

theorem replaceGo_append_q3 (B : Str) : ∀ fuel : Nat,
    containsSub q3 B = false → B.getLast? ≠ some '\"' → B.length + 3 ≤ fuel →
    replaceGo q3 [] fuel (B ++ q3) = B := by
  induction B with
  | nil =>
    intro fuel _ _ hf
    cases fuel with
    | zero => omega
    | succ f =>
      show replaceGo q3 [] (f + 1) ('\"' :: ['\"', '\"']) = []
      rw [replaceGo_cons q3 [] f '\"' ['\"', '\"'], if_pos (by decide)]
      rw [List.nil_append]
      show replaceGo q3 [] f [] = []
      exact replaceGo_nil q3 [] f
  | cons c rest ih =>
    intro fuel h1 h2 hf
    cases fuel with
    | zero => omega
    | succ f =>
      rw [List.cons_append, replaceGo_cons]
      rw [if_neg (by
        rw [q3_not_prefix_mid c rest h1 h2, Bool.and_false]
        exact Bool.false_ne_true)]
      have h1' := (containsSub_cons_split q3 c rest h1).2
      have h2' := getLast_cons_tail c rest h2
      rw [ih f h1' h2' (by simp at hf ⊢; omega)]

theorem pyReplace_remove_q3 (B : Str)
    (h1 : containsSub q3 B = false) (h2 : B.getLast? ≠ some '\"') :
    pyReplace q3 [] (q3 ++ B ++ q3) = B := by
  unfold pyReplace
  have hlen : (q3 ++ B ++ q3).length = B.length + 5 + 1 := by simp [q3]
  rw [hlen]
  have hcons : q3 ++ B ++ q3 = '\"' :: ('\"' :: '\"' :: (B ++ q3)) := by simp [q3]
  rw [hcons, replaceGo_cons]
  rw [if_pos (by simp [q3, List.isPrefixOf])]
  rw [List.nil_append]
  show replaceGo q3 [] (B.length + 5) (B ++ q3) = B
  exact replaceGo_append_q3 B (B.length + 5) h1 h2 (by omega)

theorem tabRepl_append (a b : Str) : tabRepl (a ++ b) = tabRepl a ++ tabRepl b := by
  unfold tabRepl
  rw [List.flatMap_append]

theorem tabRepl_q3 : tabRepl q3 = q3 := rfl

theorem textwrapIndent_nil (u : Str) : textwrapIndent [] u = [] := rfl

theorem stringFormatGo_nil (u : Str) (d fuel : Nat) : stringFormatGo u d fuel [] = [] := by
  cases fuel with
  | zero => rfl
  | succ f => rfl

theorem stringFormatGo_match (u : Str) (d fuel : Nat) (s : Str) (g m : Nat)
    (h : findMatch s = some (g, m)) :
    stringFormatGo u d (fuel + 1) s =
      textwrapIndent (s.take g) u ++ sliceFormat ((s.drop g).take m) u d ++
        stringFormatGo u d fuel (s.drop (g + m)) := by
  conv_lhs => unfold stringFormatGo
  rw [h]

theorem string_format_q3_wrap (B : Str) (d : Nat)
    (hq1 : containsSub q3 B = false) (hq2 : B.getLast? ≠ some '\"') :
    string_format (q3 ++ B ++ q3) d =
      sliceFormat (q3 ++ B ++ q3) (repeatStr TAB d) d := by
  unfold string_format
  have hlen : (q3 ++ B ++ q3).length = B.length + 5 + 1 := by simp [q3]
  rw [hlen]
  rw [stringFormatGo_match (repeatStr TAB d) d (B.length + 5) (q3 ++ B ++ q3) 0
    (B.length + 6) (findMatch_q3_wrap B hq1 hq2)]
  rw [List.take_zero, textwrapIndent_nil, List.drop_zero, List.nil_append]
  have hl6 : (q3 ++ B ++ q3).length = B.length + 6 := by simp [q3]
  have ht : (q3 ++ B ++ q3).take (B.length + 6) = q3 ++ B ++ q3 := by
    rw [← hl6]
    exact List.take_length _
  have hdz : (q3 ++ B ++ q3).drop (0 + (B.length + 6)) = [] := by
    rw [Nat.zero_add, ← hl6]
    exact List.drop_length _
  rw [ht, hdz, stringFormatGo_nil, List.append_nil]

theorem sliceFormat_q3_wrap (B : Str) (d : Nat) (hd : 0 < d)
    (hq3 : containsSub q3 (tabRepl B) = false)
    (hq4 : (tabRepl B).getLast? ≠ some '\"')
    (hnl : '\n' ∈ tabRepl B) :
    sliceFormat (q3 ++ B ++ q3) (repeatStr TAB d) d =
      textwrapIndent (q3 ++ textwrapDedent (tabRepl B) ++ q3) (repeatStr TAB d) := by
  have hq3lit : (['\"', '\"', '\"'] : Str) = q3 := rfl
  simp only [sliceFormat]
  rw [pyReplace_tab, tabRepl_append, tabRepl_append, tabRepl_q3]
  rw [hq3lit]
  have hcount : 0 < countChar '\n' (q3 ++ tabRepl B ++ q3) := by
    unfold countChar
    rw [List.count_append, List.count_append]
    have hpos : 0 < (tabRepl B).count '\n' := List.count_pos_iff.mpr hnl
    omega
  rw [if_pos ⟨hcount, hd⟩]
  rw [pyReplace_remove_q3 (tabRepl B) hq3 hq4]

theorem dedentContentLine_of_hasContent (l : Str) (h : hasContent l = true) :
    dedentContentLine l = true := by
  rcases List.any_eq_true.mp h with ⟨c, hc, hcp⟩
  unfold dedentContentLine
  rw [List.any_eq_true]
  refine ⟨c, hc, ?_⟩
  rw [Bool.not_eq_true'] at hcp
  by_contra hcc
  rw [Bool.not_eq_true, Bool.not_eq_false'] at hcc
  rcases Bool.or_eq_true_iff.mp hcc with h1 | h1
  · rw [decide_eq_true_iff] at h1
    subst h1
    exact absurd hcp (by decide)
  · rw [decide_eq_true_iff] at h1
    subst h1
    exact absurd hcp (by decide)

theorem dedLine_content (t l : Str) (hl : l ∈ splitOnNL t) (hc : dedentContentLine l = true) :
    dedLine (dedentMargin t) l = l.drop (dedentMargin t).length := by
  unfold dedLine
  rw [dedentNorm_content l hc]
  by_cases hM : (dedentMargin t).isEmpty = true
  · have hMnil : dedentMargin t = [] := by
      cases hm : dedentMargin t with
      | nil => rfl
      | cons a as => rw [hm] at hM; simp at hM
    rw [hMnil]
    simp
  · have hpre := dedentMargin_prefix t l hl hc
    have hpl : (dedentMargin t).isPrefixOf l = true :=
      List.isPrefixOf_iff_prefix.mpr (hpre.trans (List.takeWhile_prefix _))
    rw [Bool.not_eq_true] at hM
    simp [hM, hpl]

theorem hasContent_append (a b : Str) :
    hasContent (a ++ b) = (hasContent a || hasContent b) := by
  unfold hasContent
  rw [List.any_append]

theorem hasContent_leadWs (l : Str) : hasContent (leadWs l) = false := by
  unfold hasContent
  by_contra hcontra
  rw [Bool.not_eq_false] at hcontra
  rcases List.any_eq_true.mp hcontra with ⟨c, hc, hcp⟩
  have hst := leadWs_st l c hc
  rcases Bool.or_eq_true_iff.mp hst with h1 | h1
  · rw [decide_eq_true_iff] at h1
    subst h1
    exact absurd hcp (by decide)
  · rw [decide_eq_true_iff] at h1
    subst h1
    exact absurd hcp (by decide)

theorem hasContent_eq_dropLeadWs (l : Str) : hasContent (dropLeadWs l) = hasContent l := by
  conv_rhs => rw [leadWs_decomp l]
  rw [hasContent_append, hasContent_leadWs, Bool.false_or]

theorem hasContent_drop_margin (m l : Str) (h : m <+: leadWs l) :
    hasContent (l.drop m.length) = hasContent l := by
  have hdd := (drop_margin_spec m l h).2
  rw [← hasContent_eq_dropLeadWs (l.drop m.length), hdd, hasContent_eq_dropLeadWs]

theorem repeatStr_TAB_length (d : Nat) : (repeatStr TAB d).length = 4 * d := by
  induction d with
  | zero => rfl
  | succ n ih =>
    show (TAB ++ repeatStr TAB n).length = 4 * (n + 1)
    rw [List.length_append, ih]
    have hT : TAB.length = 4 := rfl
    rw [hT]
    omega

theorem repeatStr_TAB_st (d : Nat) : ∀ c ∈ repeatStr TAB d, (c = ' ' || c = '\t') = true := by
  intro c hc
  have he := repeatStr_TAB_mem d c hc
  subst he
  rfl

theorem repeatStr_TAB_no_nl (d : Nat) : '\n' ∉ repeatStr TAB d := by
  intro hmem
  have he := repeatStr_TAB_mem d '\n' hmem
  exact absurd he (by decide)

theorem dropLeadWs_append_st2 (a b : Str) (h : ∀ c ∈ a, (c = ' ' || c = '\t') = true) :
    dropLeadWs (a ++ b) = dropLeadWs b := by
  show List.drop (leadWsLen (a ++ b)) (a ++ b) = dropLeadWs b
  unfold leadWsLen
  rw [leadWs_append_st a b h, List.length_append]
  rw [List.drop_append]
  rfl

theorem dedLine_subset (m b : Str) : ∀ c ∈ dedLine m b, c ∈ b := by
  intro c hc
  unfold dedLine dedentNorm at hc
  by_cases hw : wsOnlyLine b = true
  · rw [if_pos hw] at hc
    by_cases hp : (!m.isEmpty && m.isPrefixOf ([] : Str)) = true
    · rw [if_pos hp] at hc
      simp at hc
    · rw [if_neg hp] at hc
      cases hc
  · rw [if_neg hw] at hc
    by_cases hp : (!m.isEmpty && m.isPrefixOf b) = true
    · rw [if_pos hp] at hc
      exact List.mem_of_mem_drop hc
    · rw [if_neg hp] at hc
      exact hc

theorem indLine_no_nl (u b : Str) (hu : '\n' ∉ u) (hb : '\n' ∉ b) : '\n' ∉ indLine u b := by
  unfold indLine
  by_cases hcn : hasContent b = true
  · rw [if_pos hcn]
    intro hmem
    rcases List.mem_append.mp hmem with hm | hm
    · exact hu hm
    · exact hb hm
  · rw [if_neg hcn]
    exact hb

theorem consHead_no_nl (a : Str) (ha : '\n' ∉ a) (ls : List Str)
    (h : ∀ l ∈ ls, '\n' ∉ l) : ∀ l ∈ consHead a ls, '\n' ∉ l := by
  cases ls with
  | nil =>
    intro l hl
    simp only [consHead, List.mem_singleton] at hl
    subst hl
    exact ha
  | cons x rest =>
    intro l hl
    rcases List.mem_cons.mp hl with he | he
    · subst he
      intro hmem
      rcases List.mem_append.mp hmem with hm | hm
      · exact ha hm
      · exact h x (List.mem_cons_self _ _) hm
    · exact h l (List.mem_cons_of_mem _ he)

theorem appendLast_no_nl (a : Str) (ha : '\n' ∉ a) : ∀ ls : List Str,
    (∀ l ∈ ls, '\n' ∉ l) → ∀ l ∈ appendLast a ls, '\n' ∉ l := by
  intro ls
  induction ls with
  | nil =>
    intro _ l hl
    simp only [appendLast, List.mem_singleton] at hl
    subst hl
    exact ha
  | cons x rest ih =>
    intro h l hl
    cases rest with
    | nil =>
      simp only [appendLast, List.mem_singleton] at hl
      subst hl
      intro hmem
      rcases List.mem_append.mp hmem with hm | hm
      · exact h x (List.mem_cons_self _ _) hm
      · exact ha hm
    | cons y ys =>
      rw [appendLast_cons a x (y :: ys) (by simp)] at hl
      rcases List.mem_cons.mp hl with he | he
      · subst he
        exact h l (List.mem_cons_self _ _)
      · exact ih (fun z hz => h z (List.mem_cons_of_mem _ hz)) l he

theorem appendLast_ne_nil (a : Str) (ls : List Str) : appendLast a ls ≠ [] := by
  cases ls with
  | nil => simp [appendLast]
  | cons x rest =>
    cases rest with
    | nil => simp [appendLast]
    | cons y ys => simp [appendLast]

theorem consHead_length (a : Str) (ls : List Str) (h : ls ≠ []) :
    (consHead a ls).length = ls.length := by
  cases ls with
  | nil => exact absurd rfl h
  | cons l rest => rfl

theorem consHead_getD_pos (a : Str) (ls : List Str) (i : Nat) (h : 0 < i) :
    (consHead a ls).getD i [] = ls.getD i [] := by
  cases ls with
  | nil =>
    cases i with
    | zero => omega
    | succ n => simp [consHead]
  | cons l rest =>
    cases i with
    | zero => omega
    | succ n => simp [consHead]

theorem appendLast_length (a : Str) : ∀ ls : List Str, ls ≠ [] →
    (appendLast a ls).length = ls.length := by
  intro ls
  induction ls with
  | nil => intro h; exact absurd rfl h
  | cons l rest ih =>
    intro _
    cases rest with
    | nil => rfl
    | cons l2 ls2 =>
      rw [appendLast_cons a l (l2 :: ls2) (by simp)]
      rw [List.length_cons, List.length_cons, ih (by simp)]

theorem appendLast_getD_lt (a : Str) : ∀ (ls : List Str) (i : Nat), i + 1 < ls.length →
    (appendLast a ls).getD i [] = ls.getD i [] := by
  intro ls
  induction ls with
  | nil => intro i h; simp at h
  | cons l rest ih =>
    intro i h
    cases rest with
    | nil => simp at h
    | cons l2 ls2 =>
      rw [appendLast_cons a l (l2 :: ls2) (by simp)]
      cases i with
      | zero => rfl
      | succ n =>
        rw [List.getD_cons_succ, List.getD_cons_succ]
        exact ih n (by simp at h ⊢; omega)

theorem getD_map_str (f : Str → Str) (ls : List Str) (i : Nat) (h : i < ls.length) :
    (ls.map f).getD i [] = f (ls.getD i []) := by
  rw [List.getD_eq_getElem _ _ (by simpa using h), List.getD_eq_getElem _ _ h,
    List.getElem_map]

theorem getD_mem_of_lt (ls : List Str) (i : Nat) (h : i < ls.length) :
    ls.getD i [] ∈ ls := by
  rw [List.getD_eq_getElem _ _ h]
  exact List.getElem_mem _

/-- Claim C3, counterexample.  `string_format` does not leave literal content
untouched: the single-line literal `"""a<tab>b"""` at target indent 0 (where
the claim demands the content back unchanged, the indent prefix being empty)
comes back with its tab replaced by four spaces, because the match slice is
passed through `replace("\t", TAB)` before any branch.  And the multi-line
single-quoted literal `'''x\ny'''` at indent 1 gains `"""` delimiters it never
had: the dedent branch strips `"""` (a no-op here) and re-wraps the slice —
single-quote delimiters included — in `"""`. -/
theorem claim_C3_counterexample :
    string_format (("\"\"\"a\tb\"\"\"").data) 0 = ("\"\"\"a    b\"\"\"").data ∧
    string_format (("\"\"\"a\tb\"\"\"").data) 0 ≠ ("\"\"\"a\tb\"\"\"").data ∧
    containsSub q3 (("'''x\ny'''").data) = false ∧
    containsSub q3 (string_format (("'''x\ny'''").data) 1) = true :=
  ⟨by decide, by decide, by decide, by decide⟩

/-- Claim C3: corrected.  Scope: a `"""`-delimited multi-line literal
`"""B"""` rendered at positive target indent `d`, with `"""` nowhere in the
body (before or after tab replacement), the body not ending in `"` and its
line breaks plain `'\n'`.  `string_format` first replaces every tab of the
slice by `TAB`, then strips the delimiters, dedents and re-indents: the
output has exactly the lines of the tab-normalised body, and every interior
content line becomes `TAB * d` followed by the line minus the common margin.
Hence each such line keeps its text after the leading whitespace, and its
indent length shifts by the uniform offset `4*d - margin`: relative
line-to-line indentation is preserved only up to tab normalisation, not for
the raw content the claim describes. -/
theorem claim_C3_theorem (B : Str) (d i : Nat)
    (hd : 0 < d)
    (hq1 : containsSub q3 B = false)
    (hq2 : B.getLast? ≠ some '\"')
    (hq3x : containsSub q3 (tabRepl B) = false)
    (hq4 : (tabRepl B).getLast? ≠ some '\"')
    (hnl : '\n' ∈ tabRepl B)
    (honly : ∀ c ∈ tabRepl B, isLineBreak c = true → c = '\n')
    (hi0 : 0 < i)
    (hilt : i + 1 < (splitOnNL (tabRepl B)).length)
    (hcont : hasContent ((splitOnNL (tabRepl B)).getD i []) = true) :
    (splitOnNL (string_format (q3 ++ B ++ q3) d)).length
        = (splitOnNL (tabRepl B)).length ∧
    (splitOnNL (string_format (q3 ++ B ++ q3) d)).getD i []
        = repeatStr TAB d ++
          ((splitOnNL (tabRepl B)).getD i []).drop (dedentMargin (tabRepl B)).length ∧
    leadWsLen ((splitOnNL (string_format (q3 ++ B ++ q3) d)).getD i [])
          + (dedentMargin (tabRepl B)).length
        = leadWsLen ((splitOnNL (tabRepl B)).getD i []) + 4 * d ∧
    dropLeadWs ((splitOnNL (string_format (q3 ++ B ++ q3) d)).getD i [])
        = dropLeadWs ((splitOnNL (tabRepl B)).getD i []) := by
  have hU := repeatStr_TAB_st d
  have hUnl := repeatStr_TAB_no_nl d
  have hq3nl : '\n' ∉ q3 := by decide
  have h1 : string_format (q3 ++ B ++ q3) d
      = textwrapIndent (q3 ++ textwrapDedent (tabRepl B) ++ q3) (repeatStr TAB d) := by
    rw [string_format_q3_wrap B d hq1 hq2, sliceFormat_q3_wrap B d hd hq3x hq4 hnl]
  have hD2only : ∀ c ∈ q3 ++ textwrapDedent (tabRepl B) ++ q3,
      isLineBreak c = true → c = '\n' := by
    intro c hc hlb
    rcases List.mem_append.mp hc with hc1 | hc2
    · rcases List.mem_append.mp hc1 with hc3 | hc4
      · simp [q3] at hc3
        subst hc3
        exact absurd hlb (by decide)
      · rcases mem_textwrapDedent c (tabRepl B) hc4 with hm | hm
        · exact honly c hm hlb
        · exact hm
    · simp [q3] at hc2
      subst hc2
      exact absurd hlb (by decide)
  have hL0nl : ∀ l ∈ (splitOnNL (tabRepl B)).map (dedLine (dedentMargin (tabRepl B))),
      '\n' ∉ l := by
    intro l hl hmem
    rcases List.mem_map.mp hl with ⟨b, hb, hbe⟩
    subst hbe
    exact splitOnNL_no_nl (tabRepl B) b hb (dedLine_subset _ b '\n' hmem)
  have hL0ne : (splitOnNL (tabRepl B)).map (dedLine (dedentMargin (tabRepl B))) ≠ [] := by
    intro hh
    have hlz := congrArg List.length hh
    rw [List.length_map] at hlz
    exact splitOnNL_ne_nil (tabRepl B) (List.length_eq_zero.mp hlz)
  have hXsplit : splitOnNL (textwrapDedent (tabRepl B))
      = (splitOnNL (tabRepl B)).map (dedLine (dedentMargin (tabRepl B))) := by
    rw [textwrapDedent_eq]
    exact splitOnNL_joinNL _ hL0ne hL0nl
  have hL1nl := consHead_no_nl q3 hq3nl _ hL0nl
  have hL2nl := appendLast_no_nl q3 hq3nl _ hL1nl
  have hL1len : (consHead q3
        ((splitOnNL (tabRepl B)).map (dedLine (dedentMargin (tabRepl B))))).length
      = (splitOnNL (tabRepl B)).length := by
    rw [consHead_length q3 _ hL0ne, List.length_map]
  have hL1ne : consHead q3
      ((splitOnNL (tabRepl B)).map (dedLine (dedentMargin (tabRepl B)))) ≠ [] := by
    intro hh
    have hlz := congrArg List.length hh
    rw [hL1len] at hlz
    exact splitOnNL_ne_nil (tabRepl B) (List.length_eq_zero.mp (by simpa using hlz))
  have hL2len : (appendLast q3 (consHead q3
        ((splitOnNL (tabRepl B)).map (dedLine (dedentMargin (tabRepl B)))))).length
      = (splitOnNL (tabRepl B)).length := by
    rw [appendLast_length q3 _ hL1ne, hL1len]
  have hout : splitOnNL (string_format (q3 ++ B ++ q3) d)
      = (appendLast q3 (consHead q3
          ((splitOnNL (tabRepl B)).map (dedLine (dedentMargin (tabRepl B)))))).map
        (indLine (repeatStr TAB d)) := by
    rw [h1, textwrapIndent_nlOnly _ _ hD2only]
    rw [splitOnNL_append_right _ q3 hq3nl, splitOnNL_append_left q3 _ hq3nl, hXsplit]
    refine splitOnNL_joinNL _ ?_ ?_
    · intro hh
      have hlz := congrArg List.length hh
      rw [List.length_map, hL2len] at hlz
      exact splitOnNL_ne_nil (tabRepl B) (List.length_eq_zero.mp hlz)
    · intro l hl hmem
      rcases List.mem_map.mp hl with ⟨b, hb, hbe⟩
      subst hbe
      exact indLine_no_nl _ b hUnl (hL2nl b hb) hmem
  have houtlen : (splitOnNL (string_format (q3 ++ B ++ q3) d)).length
      = (splitOnNL (tabRepl B)).length := by
    rw [hout, List.length_map, hL2len]
  have hilt' : i < (splitOnNL (tabRepl B)).length := by omega
  have e1 : (splitOnNL (string_format (q3 ++ B ++ q3) d)).getD i []
      = indLine (repeatStr TAB d) ((appendLast q3 (consHead q3
          ((splitOnNL (tabRepl B)).map (dedLine (dedentMargin (tabRepl B)))))).getD i []) := by
    rw [hout]
    exact getD_map_str _ _ i (by rw [hL2len]; omega)
  have e2 : (appendLast q3 (consHead q3
        ((splitOnNL (tabRepl B)).map (dedLine (dedentMargin (tabRepl B)))))).getD i []
      = (consHead q3
          ((splitOnNL (tabRepl B)).map (dedLine (dedentMargin (tabRepl B))))).getD i [] :=
    appendLast_getD_lt q3 _ i (by rw [hL1len]; omega)
  have e3 : (consHead q3
        ((splitOnNL (tabRepl B)).map (dedLine (dedentMargin (tabRepl B))))).getD i []
      = ((splitOnNL (tabRepl B)).map (dedLine (dedentMargin (tabRepl B)))).getD i [] :=
    consHead_getD_pos q3 _ i hi0
  have e4 : ((splitOnNL (tabRepl B)).map (dedLine (dedentMargin (tabRepl B)))).getD i []
      = dedLine (dedentMargin (tabRepl B)) ((splitOnNL (tabRepl B)).getD i []) :=
    getD_map_str _ _ i hilt'
  have hmem_li : (splitOnNL (tabRepl B)).getD i [] ∈ splitOnNL (tabRepl B) :=
    getD_mem_of_lt _ i hilt'
  have hdcl : dedentContentLine ((splitOnNL (tabRepl B)).getD i []) = true :=
    dedentContentLine_of_hasContent _ hcont
  have e5 : dedLine (dedentMargin (tabRepl B)) ((splitOnNL (tabRepl B)).getD i [])
      = ((splitOnNL (tabRepl B)).getD i []).drop (dedentMargin (tabRepl B)).length :=
    dedLine_content (tabRepl B) _ hmem_li hdcl
  have hpre : dedentMargin (tabRepl B) <+: leadWs ((splitOnNL (tabRepl B)).getD i []) :=
    dedentMargin_prefix (tabRepl B) _ hmem_li hdcl
  have hcont2 : hasContent (((splitOnNL (tabRepl B)).getD i []).drop
      (dedentMargin (tabRepl B)).length) = true := by
    rw [hasContent_drop_margin _ _ hpre]
    exact hcont
  have e6 : indLine (repeatStr TAB d) (((splitOnNL (tabRepl B)).getD i []).drop
        (dedentMargin (tabRepl B)).length)
      = repeatStr TAB d ++ ((splitOnNL (tabRepl B)).getD i []).drop
          (dedentMargin (tabRepl B)).length := by
    unfold indLine
    rw [if_pos hcont2]
  have eAll : (splitOnNL (string_format (q3 ++ B ++ q3) d)).getD i []
      = repeatStr TAB d ++ ((splitOnNL (tabRepl B)).getD i []).drop
          (dedentMargin (tabRepl B)).length := by
    rw [e1, e2, e3, e4, e5, e6]
  have hlw : leadWsLen (repeatStr TAB d ++ ((splitOnNL (tabRepl B)).getD i []).drop
          (dedentMargin (tabRepl B)).length) + (dedentMargin (tabRepl B)).length
      = leadWsLen ((splitOnNL (tabRepl B)).getD i []) + 4 * d := by
    unfold leadWsLen
    rw [leadWs_append_st _ _ hU, List.length_append, repeatStr_TAB_length]
    rw [(drop_margin_spec _ _ hpre).1, List.length_drop]
    have hMle : (dedentMargin (tabRepl B)).length
        ≤ (leadWs ((splitOnNL (tabRepl B)).getD i [])).length := hpre.length_le
    omega
  have hdl : dropLeadWs (repeatStr TAB d ++ ((splitOnNL (tabRepl B)).getD i []).drop
        (dedentMargin (tabRepl B)).length)
      = dropLeadWs ((splitOnNL (tabRepl B)).getD i []) := by
    rw [dropLeadWs_append_st2 _ _ hU, (drop_margin_spec _ _ hpre).2]
  refine ⟨houtlen, eAll, ?_, ?_⟩
  · rw [eAll]
    exact hlw
  · rw [eAll]
    exact hdl

/-- Claim C3, witness: the corrected theorem applied to the body
`"\n  a\n    b\n"` at indent 1, interior line index 1.  The common margin is
two spaces, line 1 (`"  a"`) comes out as `"    a"`: indent length goes from
2 to 4 = 2 + 4*1 - 2, text after the whitespace stays `"a"`. -/
theorem claim_C3_witness :
    (splitOnNL (string_format (q3 ++ ("\n  a\n    b\n").data ++ q3) 1)).length
        = (splitOnNL (tabRepl (("\n  a\n    b\n").data))).length ∧
    (splitOnNL (string_format (q3 ++ ("\n  a\n    b\n").data ++ q3) 1)).getD 1 []
        = repeatStr TAB 1 ++
          ((splitOnNL (tabRepl (("\n  a\n    b\n").data))).getD 1 []).drop
            (dedentMargin (tabRepl (("\n  a\n    b\n").data))).length ∧
    leadWsLen ((splitOnNL (string_format (q3 ++ ("\n  a\n    b\n").data ++ q3) 1)).getD 1 [])
          + (dedentMargin (tabRepl (("\n  a\n    b\n").data))).length
        = leadWsLen ((splitOnNL (tabRepl (("\n  a\n    b\n").data))).getD 1 []) + 4 * 1 ∧
    dropLeadWs ((splitOnNL (string_format (q3 ++ ("\n  a\n    b\n").data ++ q3) 1)).getD 1 [])
        = dropLeadWs ((splitOnNL (tabRepl (("\n  a\n    b\n").data))).getD 1 []) :=
  claim_C3_theorem (("\n  a\n    b\n").data) 1 1 (by decide) (by decide) (by decide)
    (by decide) (by decide) (by decide) (by decide) (by decide) (by decide) (by decide)

end Snakefmt
